import Mathlib

/-!
Verification development for the Man10Routine maintenance orchestrator.

The definitions below are shallow embeddings of the Rust sources:

* `src/scheduler/dag_scheduler.rs` — task specification, DAG validation
  (`Scheduler::from_tasks`) and the scheduling loop (`Scheduler::run`).
* `src/scheduler/shutdown.rs` — the shutdown latch, modelled as a monotone
  boolean stream sampled at each `requested()` call.
* `src/kubernetes_objects/argocd/tearing.rs` — the reference-counted ArgoCD
  teardown guard (`tear` / `close`).
* `src/kubernetes_objects/statefulset.rs`,
  `src/routine/daily/wait_until_pod_stopped.rs`,
  `src/routine/daily/wait_until_job_finished.rs` — the polling wait loops.
* `src/routine/daily/mod.rs` — `build_daily_tasks`.
* `src/routine/daily/scale_statefulset.rs` — `scale_statefulset_to_zero`.

Durations are modelled in whole seconds as `Nat`; Kubernetes API calls are
modelled by oracles (lists of probe outcomes, success/failure predicates).
-/

namespace Man10Routine

/-! ### Task specifications and DAG validation
    (src/scheduler/dag_scheduler.rs, lines 15-96)

A `TaskSpec` keeps the observable fields `name` and `deps`; the `exec`
closure is replaced in the run model by a result oracle `res : String → Bool`
(each task's body either returns `Ok(())` or its own error value). -/

structure TaskSpec where
  name : String
  deps : List String
deriving DecidableEq, Repr

/-- The error enum `InvalidDagError` (dag_scheduler.rs, lines 42-49). The source enum has
exactly these two variants: there is no `Cycle` variant. -/
inductive InvalidDagError where
  | DuplicateTaskName (name : String)
  | UnknownDependency (task dependency : String)
deriving DecidableEq, Repr

/-- Association-list lookup of a `Nat` entry, defaulting to 0 (models
`indegree` HashMap reads; every key read by the code has been inserted). -/
def alNat (l : List (String × Nat)) (k : String) : Nat :=
  ((l.find? (fun p => p.1 = k)).map (fun p => p.2)).getD 0

/-- Models `indegree.entry(k).or_insert(0)`: insert a zero entry if absent. -/
def alInit (l : List (String × Nat)) (k : String) : List (String × Nat) :=
  if (l.find? (fun p => p.1 = k)).isSome then l else l ++ [(k, 0)]

/-- Models `*indegree.entry(k).or_insert(0) += 1`. -/
def alIncr (l : List (String × Nat)) (k : String) : List (String × Nat) :=
  if (l.find? (fun p => p.1 = k)).isSome then
    l.map (fun p => if p.1 = k then (p.1, p.2 + 1) else p)
  else l ++ [(k, 1)]

/-- Models `*indegree.get_mut(k) -= 1` (truncated at zero; the code never
decrements a zero entry, see the run-loop invariants below). -/
def alDec (l : List (String × Nat)) (k : String) : List (String × Nat) :=
  l.map (fun p => if p.1 = k then (p.1, p.2 - 1) else p)

/-- Models `reverse_edges.entry(dep).or_default().push(name)`. -/
def alPush (l : List (String × List String)) (k v : String) :
    List (String × List String) :=
  if (l.find? (fun p => p.1 = k)).isSome then
    l.map (fun p => if p.1 = k then (p.1, p.2 ++ [v]) else p)
  else l ++ [(k, [v])]

/-- The validated scheduler (dag_scheduler.rs, lines 35-40). `tasks` is the
map in insertion order (the Rust `HashMap` iteration order is arbitrary;
none of the proved properties depend on it). -/
structure Scheduler where
  tasks : List TaskSpec
  reverseEdges : List (String × List String)
  indegree : List (String × Nat)
deriving DecidableEq, Repr

/-- First loop of `from_tasks` (lines 61-67): build the task map, rejecting
duplicate names. `acc` is the map built so far in insertion order. -/
def buildTasksMap (acc : List TaskSpec) :
    List TaskSpec → Except InvalidDagError (List TaskSpec)
  | [] => .ok acc
  | t :: rest =>
    if (acc.map (fun s => s.name)).contains t.name then
      .error (.DuplicateTaskName t.name)
    else
      buildTasksMap (acc ++ [t]) rest

/-- Inner loop over one task's `deps` (lines 74-87): reject unknown
dependencies, record reverse edges and bump the task's indegree. -/
def addTaskEdges (names : List String) (taskName : String)
    (tb : List (String × Nat) × List (String × List String)) :
    List String → Except InvalidDagError (List (String × Nat) × List (String × List String))
  | [] => .ok tb
  | d :: rest =>
    if names.contains d then
      addTaskEdges names taskName (alIncr tb.1 taskName, alPush tb.2 d taskName) rest
    else
      .error (.UnknownDependency taskName d)

/-- Second loop of `from_tasks` (lines 72-88): for each task, insert its
zero indegree entry then process its dependencies. -/
def buildTables (names : List String)
    (tb : List (String × Nat) × List (String × List String)) :
    List TaskSpec → Except InvalidDagError (List (String × Nat) × List (String × List String))
  | [] => .ok tb
  | t :: rest => do
    let tb := (alInit tb.1 t.name, tb.2)
    let tb ← addTaskEdges names t.name tb t.deps
    buildTables names tb rest

/-- Construction `Scheduler::from_tasks` (dag_scheduler.rs, lines 57-96). Note: no cycle
check is performed anywhere. -/
def fromTasks (tasks : List TaskSpec) : Except InvalidDagError Scheduler :=
  match buildTasksMap [] tasks with
  | .error e => .error e
  | .ok tasksMap =>
    match buildTables (tasksMap.map (fun t => t.name)) ([], []) tasksMap with
    | .error e => .error e
    | .ok tb => .ok { tasks := tasksMap, reverseEdges := tb.2, indegree := tb.1 }

/-! ### The scheduling loop `Scheduler::run`
    (dag_scheduler.rs, lines 98-157)

The loop is modelled as a deterministic interpreter over oracles:

* `sd : Nat → Bool` — the value returned by the `i`-th call to
  `Shutdown::requested()` (shutdown.rs, lines 18-20). The watch channel is
  armed at most once and never cleared, so real executions correspond to
  monotone streams.
* `pick : Nat → Nat` — which in-flight task `JoinSet::join_next` returns
  (indexed into the in-flight list; this models tokio's arbitrary
  completion order).
* `res : String → Bool` — whether a task's body returns `Ok(())`.

Every `requested()` call, spawn, and join is recorded as an event so that
temporal claims can be stated over the trace. -/

/-- Observable events of one `Scheduler::run` execution, in order. -/
inductive Ev where
  | sample (b : Bool)
  | spawn (n : String)
  | joinOk (n : String)
  | joinErr (n : String)
deriving DecidableEq, Repr

/-- Mutable state of the run loop. `time` counts `requested()` calls; every
call appends its `.sample` event and advances `time` by one. -/
structure RunSt where
  tasks : List TaskSpec
  ready : List String
  inflight : List String
  indeg : List (String × Nat)
  time : Nat
  trace : List Ev
deriving DecidableEq, Repr

/-- The inner spawn loop (lines 112-127): pop tasks off the ready queue,
breaking (and dropping the popped name) as soon as `requested()` is true;
otherwise remove the spec from the task map and spawn the task. Called with
the queue contents; the state's own `ready` field has been emptied. -/
def spawnLoop (sd : Nat → Bool) : List String → RunSt → RunSt
  | [], s => s
  | n :: rest, s =>
    if sd s.time then
      { s with
          time := s.time + 1
          trace := s.trace ++ [.sample (sd s.time)]
          ready := rest }
    else
      spawnLoop sd rest
        { s with
          time := s.time + 1
          trace := s.trace ++ [.sample (sd s.time), .spawn n]
          tasks := s.tasks.filter (fun t => t.name ≠ n)
          inflight := s.inflight ++ [n] }

/-- Association-list lookup of a `List String` entry, defaulting to `[]`. -/
def alList (l : List (String × List String)) (k : String) : List String :=
  ((l.find? (fun p => p.1 = k)).map (fun p => p.2)).getD []

/-- Models `reverse_edges.get(&name)` with the `None ⇒ no dependents` default
(lines 139-150 run only under `if let Some`). -/
def revEdgesOf (sch : Scheduler) (n : String) : List String :=
  alList sch.reverseEdges n

/-- The dependent-update loop after a successful join (lines 139-150):
decrement each dependent's indegree and, when it reaches zero and
`requested()` (sampled lazily by `&&`) is false, enqueue it. -/
def processDeps (sd : Nat → Bool) : List String → RunSt → RunSt
  | [], s => s
  | d :: rest, s =>
    let indeg2 := alDec s.indeg d
    if alNat indeg2 d = 0 then
      if sd s.time then
        processDeps sd rest
          { s with
              indeg := indeg2
              time := s.time + 1
              trace := s.trace ++ [.sample (sd s.time)] }
      else
        processDeps sd rest
          { s with
              indeg := indeg2
              time := s.time + 1
              trace := s.trace ++ [.sample (sd s.time)]
              ready := s.ready ++ [d] }
    else
      processDeps sd rest { s with indeg := indeg2 }

/-- The outcome of `Scheduler::run`: `Ok(Ok(()))` or the first task error,
identified by the name of the task that returned it. (Task panics /
`JoinError`s are not modelled: task bodies either succeed or return their
error value.) -/
inductive RunOutcome where
  | ok
  | err (task : String)
deriving DecidableEq, Repr

/-- Result of one iteration of the outer `while` loop. -/
inductive StepRes where
  | next (s : RunSt)
  | stop (r : RunOutcome) (s : RunSt)
deriving Repr

/-- The head shutdown check of one iteration (lines 108-110): one
`requested()` call; on `true` the ready queue is cleared. -/
def headCheck (sd : Nat → Bool) (s : RunSt) : RunSt :=
  let sA : RunSt :=
    { s with time := s.time + 1, trace := s.trace ++ [.sample (sd s.time)] }
  if sd s.time then { sA with ready := [] } else sA

/-- State after the head check and the spawn loop, just before
`join_next` (lines 108-127). -/
def preJoinSt (sd : Nat → Bool) (s : RunSt) : RunSt :=
  let sB := headCheck sd s
  spawnLoop sd sB.ready { sB with ready := [] }

/-- Step for when `join_next` returned task `n` (chosen by `pick` out of the non-empty
in-flight list `x :: xs`): remove it, then either return the error
immediately (line 136) or record success and update dependents
(lines 139-150). `getD` never falls back to its default: the index is
reduced modulo the length. -/
def joinStep (sch : Scheduler) (sd : Nat → Bool) (pick : Nat → Nat)
    (res : String → Bool) (sC : RunSt) (x : String) (xs : List String) : StepRes :=
  let idx := pick sC.time % (x :: xs).length
  let n := (x :: xs).getD idx x
  let sD := { sC with inflight := (x :: xs).eraseIdx idx }
  if res n then
    .next (processDeps sd (revEdgesOf sch n)
      { sD with trace := sD.trace ++ [.joinOk n] })
  else
    .stop (.err n) { sD with trace := sD.trace ++ [.joinErr n] }

/-- One iteration of the outer loop of `Scheduler::run` (lines 107-153):
the loop condition, the head shutdown check, the spawn loop, and
`join_next` (`continue` when nothing is in flight, line 129-131). -/
def runStep (sch : Scheduler) (sd : Nat → Bool) (pick : Nat → Nat)
    (res : String → Bool) (s : RunSt) : StepRes :=
  if s.ready.isEmpty ∧ s.inflight.isEmpty then .stop .ok s
  else
    match (preJoinSt sd s).inflight with
    | [] => .next (preJoinSt sd s)
    | x :: xs => joinStep sch sd pick res (preJoinSt sd s) x xs

/-- The outer `while !ready.is_empty() || !inflight.is_empty()` loop,
fuel-based; `none` means the fuel ran out, never a behaviour of the code. -/
def runLoop (sch : Scheduler) (sd : Nat → Bool) (pick : Nat → Nat)
    (res : String → Bool) : Nat → RunSt → Option (RunOutcome × RunSt)
  | 0, _ => none
  | fuel + 1, s =>
    match runStep sch sd pick res s with
    | .stop r s2 => some (r, s2)
    | .next s2 => runLoop sch sd pick res fuel s2

/-- The initial state of `run` (lines 99-105): the ready queue holds the
indegree-zero tasks. -/
def initSt (sch : Scheduler) : RunSt :=
  { tasks := sch.tasks
    ready := (sch.indegree.filter (fun p => p.2 = 0)).map (fun p => p.1)
    inflight := []
    indeg := sch.indegree
    time := 0
    trace := [] }

/-- Runs `Scheduler::run` end to end. -/
def schedulerRun (sch : Scheduler) (sd : Nat → Bool) (pick : Nat → Nat)
    (res : String → Bool) (fuel : Nat) : Option (RunOutcome × RunSt) :=
  runLoop sch sd pick res fuel (initSt sch)


/-! ### Predicates for the scheduler claims -/

/-- Number of dependencies in `ds` whose successful completion (`joinOk`)
has not yet been observed in the trace. -/
def pendingDeps (tr : List Ev) (ds : List String) : Nat :=
  ds.countP (fun d => !(tr.contains (Ev.joinOk d)))

/-- Structural facts about a scheduler produced by `from_tasks`. -/
structure WFSched (sch : Scheduler) : Prop where
  tasksNodup : (sch.tasks.map (fun t => t.name)).Nodup
  indegSpec : ∀ t ∈ sch.tasks, alNat sch.indegree t.name = t.deps.length
  indegKeysNodup : (sch.indegree.map (fun p => p.1)).Nodup
  revSpec : ∀ (n : String), ∀ t ∈ sch.tasks,
    (revEdgesOf sch n).count t.name = t.deps.count n
  revMem : ∀ (n m : String), m ∈ revEdgesOf sch n →
    ∃ t ∈ sch.tasks, t.name = m ∧ n ∈ t.deps

/-- Every `spawn` event in the trace is preceded by the successful joins
of all of the spawned task's dependencies. -/
def SpawnDepsOk (sch : Scheduler) (tr : List Ev) : Prop :=
  ∀ (j : Nat) (nm : String), tr.get? j = some (Ev.spawn nm) →
    ∀ t ∈ sch.tasks, t.name = nm → ∀ d ∈ t.deps, Ev.joinOk d ∈ tr.take j

/-- The run-loop invariant tying the mutable scheduling state to the
trace, minus the indegree bookkeeping (which is stated separately because
it is temporarily perturbed inside the dependent-update loop). -/
structure InvBase (sch : Scheduler) (s : RunSt) : Prop where
  readyDeps : ∀ nm ∈ s.ready, ∀ t ∈ sch.tasks, t.name = nm →
    ∀ d ∈ t.deps, Ev.joinOk d ∈ s.trace
  spawnDeps : SpawnDepsOk sch s.trace
  readyFresh : ∀ nm ∈ s.ready, Ev.spawn nm ∉ s.trace ∧ Ev.joinOk nm ∉ s.trace
  readyNodup : s.ready.Nodup
  inflightSpawned : ∀ nm ∈ s.inflight, Ev.spawn nm ∈ s.trace
  inflightNotJoined : ∀ nm ∈ s.inflight, Ev.joinOk nm ∉ s.trace
  joinedSpawned : ∀ nm : String, Ev.joinOk nm ∈ s.trace → Ev.spawn nm ∈ s.trace
  inflightNodup : s.inflight.Nodup

/-- The full run-loop invariant. -/
structure InvSched (sch : Scheduler) (s : RunSt) extends InvBase sch s : Prop where
  indegCount : ∀ t ∈ sch.tasks, alNat s.indeg t.name = pendingDeps s.trace t.deps

/-- Total `deps` length contributed by the tasks named `k`. -/
def depsLenOf (ts : List TaskSpec) (k : String) : Nat :=
  ((ts.filter (fun t => t.name = k)).map (fun t => t.deps.length)).sum

/-- Number of reverse edges from `n` to tasks named `m`. -/
def revContrib (ts : List TaskSpec) (n m : String) : Nat :=
  ((ts.filter (fun t => t.name = m)).map (fun t => t.deps.count n)).sum

/-- The shutdown latch is armed at most once and never cleared
(shutdown.rs, lines 29-61): the stream of `requested()` readings is
monotone. -/
def SdMonotone (sd : Nat → Bool) : Prop :=
  ∀ i j : Nat, i ≤ j → sd i = true → sd j = true

/-- No task body is started at or after a `requested() = true` reading:
every `spawn` in the trace precedes every `sample true`. -/
def spawnsPrecedeShutdown (tr : List Ev) : Prop :=
  ∀ (j : Nat) (n : String), tr.get? j = some (Ev.spawn n) →
    Ev.sample true ∉ tr.take j

/-- Invariant for the shutdown claim: the trace so far respects
`spawnsPrecedeShutdown`, and if some `requested()` call already returned
`true` then (by monotonicity) the next call will as well. -/
def SdInv (sd : Nat → Bool) (s : RunSt) : Prop :=
  spawnsPrecedeShutdown s.trace ∧ (Ev.sample true ∈ s.trace → sd s.time = true)

/-! ### Concrete runs used as counterexamples and witnesses -/

/-- Two independent tasks; `a` fails. -/
def c2tasks : List TaskSpec := [⟨"a", []⟩, ⟨"b", []⟩]

def c2sched : Scheduler := ((fromTasks c2tasks).toOption).getD ⟨[], [], []⟩

/-- Run with no shutdown, `join_next` returning `a` (which errors) first. -/
def c2run : Option (RunOutcome × RunSt) :=
  schedulerRun c2sched (fun _ => false) (fun _ => 0) (fun n => n != "a") 10

/-- A dependency pair `a → b`, everything succeeding. -/
def c5tasks : List TaskSpec := [⟨"a", []⟩, ⟨"b", ["a"]⟩]

def c5sched : Scheduler := ((fromTasks c5tasks).toOption).getD ⟨[], [], []⟩

def c5run : Option (RunOutcome × RunSt) :=
  schedulerRun c5sched (fun _ => false) (fun _ => 0) (fun _ => true) 10

/-- The same dependency pair under a shutdown armed from the second
`requested()` call onwards. -/
def c6sd : Nat → Bool := fun t => decide (2 ≤ t)

def c6run : Option (RunOutcome × RunSt) :=
  schedulerRun c5sched c6sd (fun _ => 0) (fun _ => true) 10

/-! ### ArgoCD teardown guard
    (src/kubernetes_objects/argocd/tearing.rs) -/

/-- Errors of the teardown path (the constructors of `ArgoCdError` this
path can produce; `noFuel` marks exhausted recursion fuel, never a
behaviour of the code). -/
inductive AErr where
  | pauseErr (n : String)
  | tearupErr (n : String)
  | droppedErr (n : String)
  | noFuel
deriving DecidableEq, Repr

/-- Cluster-visible patch events: the pause patch of `sync_teardown`
(tearing.rs line 190) and the restore patch of `sync_tearup` (line 225),
each tagged with whether the API call succeeded. -/
inductive TEv where
  | pause (n : String) (ok : Bool)
  | restore (n : String) (ok : Bool)
deriving DecidableEq, Repr

/-- The `Teardown` struct (lines 19-26) minus the client handle and weak
back-pointer: `upstream` is the node of the parent guard acquired during
the first tear (if any), `counter` the guard counter. -/
structure TearNode where
  upstream : Option String
  counter : Nat
deriving DecidableEq, Repr

/-- State of every `ArgoCd.tear` field plus the patch trace. An entry
`(n, Except.ok nd)` models `tear = Some(Ok(teardown))`; an entry
`(n, Except.error e)` would model `tear = Some(Err(e))`; a missing entry
models `tear = None`. -/
structure TearSt where
  tbl : List (String × Except AErr TearNode)
  trace : List TEv
deriving Repr

/-- Lookup of a node teardown field. -/
def alTear (l : List (String × Except AErr TearNode)) (k : String) :
    Option (Except AErr TearNode) :=
  (l.find? (fun p => p.1 = k)).map (fun p => p.2)

/-- Overwrite (or insert) a node teardown field. -/
def alTearSet (l : List (String × Except AErr TearNode)) (k : String)
    (v : Except AErr TearNode) : List (String × Except AErr TearNode) :=
  if (l.find? (fun p => p.1 = k)).isSome then
    l.map (fun p => if p.1 = k then (p.1, v) else p)
  else l ++ [(k, v)]

/-- Clear a node teardown field (`write_guard.tear = None`, line 131). -/
def alTearDel (l : List (String × Except AErr TearNode)) (k : String) :
    List (String × Except AErr TearNode) :=
  l.filter (fun p => p.1 ≠ k)

/-- Close: `TearingArgoCdGuard::close` (lines 102-134) on the guard of
node `a`, fuel-bounded for the upstream recursion of line 129.
`fetch_sub(1)` returns the previous counter `c`; only on `c = 1` is the
node restored (`sync_tearup`, success oracle `tu`, line 116), then the
upstream guard taken out of the teardown (line 128) is closed in turn,
and only then is the node's `tear` field cleared (line 131). A restore
failure propagates with `?` (line 121): the counter stays decremented and
the `tear` field stays set. -/
def closeG (tu : String → Bool) : Nat → String → TearSt →
    Except AErr Unit × TearSt
  | 0, _, st => (.error .noFuel, st)
  | fuel + 1, a, st =>
    match alTear st.tbl a with
    | some (.ok nd) =>
      let c := nd.counter
      let st1 : TearSt :=
        { st with tbl := alTearSet st.tbl a (.ok { nd with counter := c - 1 }) }
      if c = 1 then
        let st2 : TearSt :=
          { st1 with trace := st1.trace ++ [.restore a (tu a)] }
        if tu a then
          match nd.upstream with
          | some p =>
            let st3 : TearSt :=
              { st2 with
                  tbl := alTearSet st2.tbl a
                    (.ok { upstream := none, counter := c - 1 }) }
            match closeG tu fuel p st3 with
            | (.ok _, st4) => (.ok (), { st4 with tbl := alTearDel st4.tbl a })
            | (.error e, st4) => (.error e, st4)
          | none => (.ok (), { st2 with tbl := alTearDel st2.tbl a })
        else (.error (.tearupErr a), st2)
      else (.ok (), st1)
    | some (.error e) => (.error e, st)
    | none => (.error (.droppedErr a), st)

/-- Tear: `TearingArgoCd::tear` (lines 45-92) run along the ancestor
chain `a :: parents` of the torn node (the recursive `parent.tear` of
line 57 runs on the tail). `pz n` is the success of `sync_teardown`
(pause patch) on `n`, `tu n` the success of `sync_tearup` (restore
patch). Fast path first (lines 46-51): an existing `Some(Ok)` teardown
only gets its counter bumped (`generate_guard`), an existing `Some(Err)`
is returned as a cloned error. Otherwise the parent chain is torn first
(line 57, errors propagate with `?`), then the pause patch is issued; on
pause failure (lines 63-76) the upstream guard is closed best-effort and
the error is returned WITHOUT being written into the node's `tear`
field; on success (lines 81-91) the teardown is stored and a guard
generated (counter 1). -/
def tearChain (pz tu : String → Bool) : List String → TearSt →
    Except AErr Unit × TearSt
  | [], st => (.error .noFuel, st)
  | a :: rest, st =>
    match alTear st.tbl a with
    | some (.ok nd) =>
      (.ok (), { st with
        tbl := alTearSet st.tbl a (.ok { nd with counter := nd.counter + 1 }) })
    | some (.error e) => (.error e, st)
    | none =>
      match rest with
      | [] =>
        if pz a then
          (.ok (), { st with
            tbl := alTearSet st.tbl a (.ok { upstream := none, counter := 1 })
            trace := st.trace ++ [.pause a true] })
        else
          (.error (.pauseErr a),
            { st with trace := st.trace ++ [.pause a false] })
      | p :: _ =>
        match tearChain pz tu rest st with
        | (.error e, st1) => (.error e, st1)
        | (.ok _, st1) =>
          if pz a then
            (.ok (), { st1 with
              tbl := alTearSet st1.tbl a (.ok { upstream := some p, counter := 1 })
              trace := st1.trace ++ [.pause a true] })
          else
            let st2 : TearSt :=
              { st1 with trace := st1.trace ++ [.pause a false] }
            (.error (.pauseErr a), (closeG tu rest.length p st2).2)

/-! ### Interleaved tear calls on one shared node
    (tearing.rs lines 45-92 under concurrency; reachable through
    phase_argocd_teardown.rs, which tears charts with
    `buffer_unordered(10)`, two charts sharing a parent ArgoCD app) -/

/-- Program counter of one caller executing `tear` on the shared node:
`start` before the read-locked check of the `tear` field (line 46),
`waitW` queued for the write lock (line 53) after having read `None`,
`done` after returning a guard. -/
inductive CPc where
  | start
  | waitW
  | done
deriving DecidableEq, Repr

/-- Interleaved state of N callers concurrently tearing ONE node that has
no parent and whose pause patch succeeds: `torn` is whether the node's
`tear` field holds `Some(Ok(..))`, `pauses` counts issued pause
patches. -/
structure RaceSt where
  torn : Bool
  pauses : Nat
  pcs : List CPc
deriving DecidableEq, Repr

/-- One atomic step of caller `i`. At `start` the caller performs the
read-locked check (line 46): on `Some(Ok)` it takes the fast path
(`generate_guard`) and is done, on `None` it releases the read lock and
queues for the write lock. At `waitW` the caller holds the write lock and
runs lines 53-91 — the `tear` field is NOT re-checked after the write
lock is acquired: the caller issues the pause patch (`sync_teardown`) and
stores a fresh teardown. -/
def raceStep (st : RaceSt) (i : Nat) : RaceSt :=
  match st.pcs.get? i with
  | some .start =>
    if st.torn then { st with pcs := st.pcs.set i .done }
    else { st with pcs := st.pcs.set i .waitW }
  | some .waitW =>
    { st with
        torn := true
        pauses := st.pauses + 1
        pcs := st.pcs.set i .done }
  | _ => st

/-- Run a schedule (list of caller indices), one atomic step each. -/
def raceRun (sched : List Nat) (st : RaceSt) : RaceSt :=
  sched.foldl raceStep st

/-! ### Polling wait loops
    (statefulset.rs lines 126-204, wait_until_statefulset_scaled.rs,
    wait_until_pod_stopped.rs, wait_until_job_finished.rs) -/

/-- Config `PollingConfig` (config/polling.rs); durations in whole seconds. -/
structure PollingConfig where
  initialWait : Nat
  maxWait : Nat
  pollInterval : Nat
  errorWait : Nat
  maxErrors : Nat
deriving DecidableEq, Repr

/-- The two replica fields of `StatefulSetStatus` read by the loop. -/
structure StsStatus where
  currentReplicas : Option Int
  availableReplicas : Option Int
deriving DecidableEq, Repr

/-- Outcome of one `statefulset_api.get` probe (statefulset.rs lines
145-186): a StatefulSet with a status, one without, or a client error. -/
inductive StsProbe where
  | okStatus (s : StsStatus)
  | okNoStatus
  | clientErr
deriving DecidableEq, Repr

/-- Errors `WaitStatefulSetScaleError` (statefulset.rs lines 38-48). -/
inductive StsWaitErr where
  | kubeClient
  | statefulSetHasNoStatus
  | statefulSetScaledCheckTimeout (secs : Nat)
deriving DecidableEq, Repr

/-- The loop of `wait_until_statefulset_scaled` (lines 144-203). `k`
indexes probes, `w` is `wait_duration`, `e` is `errors_count`; `none`
means the fuel ran out (the code would keep looping). -/
def stsLoop (sp : Nat → StsProbe) (target : Int) (cfg : PollingConfig) :
    Nat → Nat → Nat → Nat → Option (Except StsWaitErr StsStatus)
  | 0, _, _, _ => none
  | fuel + 1, k, w, e =>
    match sp k with
    | .okStatus s =>
      if s.currentReplicas.getD 0 = target ∧ s.availableReplicas.getD 0 = target then
        some (.ok s)
      else if cfg.maxWait ≤ w then
        some (.error (.statefulSetScaledCheckTimeout w))
      else stsLoop sp target cfg fuel (k + 1) (w + cfg.pollInterval) e
    | .okNoStatus => some (.error .statefulSetHasNoStatus)
    | .clientErr =>
      if cfg.maxErrors ≤ e + 1 then some (.error .kubeClient)
      else stsLoop sp target cfg fuel (k + 1) (w + cfg.errorWait) (e + 1)

/-- Runs `wait_until_statefulset_scaled` end to end: the initial sleep sets
`wait_duration = initial_wait` (lines 139-141), then the loop runs. -/
def waitUntilStatefulsetScaled (sp : Nat → StsProbe) (target : Int)
    (cfg : PollingConfig) (fuel : Nat) : Option (Except StsWaitErr StsStatus) :=
  stsLoop sp target cfg fuel 0 cfg.initialWait 0

/-- Outcome of one `pod_api.get_opt` probe (wait_until_pod_stopped.rs
lines 31-83). -/
inductive PodProbe where
  | present
  | absent
  | clientErr
deriving DecidableEq, Repr

/-- Errors of `wait_until_pod_stopped`. -/
inductive PodWaitErr where
  | podShutdownCheckTimeout (secs : Nat)
  | kubeClient
deriving DecidableEq, Repr

/-- The loop of `wait_until_pod_stopped` (lines 30-84). -/
def podLoop (pp : Nat → PodProbe) (cfg : PollingConfig) :
    Nat → Nat → Nat → Nat → Option (Except PodWaitErr Unit)
  | 0, _, _, _ => none
  | fuel + 1, k, w, e =>
    match pp k with
    | .present =>
      if cfg.maxWait ≤ w then some (.error (.podShutdownCheckTimeout w))
      else podLoop pp cfg fuel (k + 1) (w + cfg.pollInterval) e
    | .clientErr =>
      if cfg.maxErrors ≤ e + 1 then some (.error .kubeClient)
      else podLoop pp cfg fuel (k + 1) (w + cfg.errorWait) (e + 1)
    | .absent => some (.ok ())

/-- Runs `wait_until_pod_stopped` end to end (lines 26-28 set up
`wait_duration = initial_wait`). -/
def waitUntilPodStopped (pp : Nat → PodProbe) (cfg : PollingConfig)
    (fuel : Nat) : Option (Except PodWaitErr Unit) :=
  podLoop pp cfg fuel 0 cfg.initialWait 0

/-- Outcome of one `job_api.get` probe (wait_until_job_finished.rs lines
31-83): the job's `status.active` field, or a client error. -/
inductive JobProbe where
  | okJob (active : Option Int)
  | clientErr
deriving DecidableEq, Repr

/-- Errors of `wait_until_job_finished`. -/
inductive JobWaitErr where
  | jobCompletionCheckTimeout (secs : Nat)
  | kubeClient
deriving DecidableEq, Repr

/-- The loop of `wait_until_job_finished` (lines 30-85): the job is
finished iff `status.active == Some(0) || status.active.is_none()`. -/
def jobLoop (jp : Nat → JobProbe) (cfg : PollingConfig) :
    Nat → Nat → Nat → Nat → Option (Except JobWaitErr (Option Int))
  | 0, _, _, _ => none
  | fuel + 1, k, w, e =>
    match jp k with
    | .okJob active =>
      if active = some 0 ∨ active = none then some (.ok active)
      else if cfg.maxWait ≤ w then
        some (.error (.jobCompletionCheckTimeout w))
      else jobLoop jp cfg fuel (k + 1) (w + cfg.pollInterval) e
    | .clientErr =>
      if cfg.maxErrors ≤ e + 1 then some (.error .kubeClient)
      else jobLoop jp cfg fuel (k + 1) (w + cfg.errorWait) (e + 1)

/-- Runs `wait_until_job_finished` end to end. -/
def waitUntilJobFinished (jp : Nat → JobProbe) (cfg : PollingConfig)
    (fuel : Nat) : Option (Except JobWaitErr (Option Int)) :=
  jobLoop jp cfg fuel 0 cfg.initialWait 0

/-- Spec-side probe outcome (spec §4.2): condition met, not yet met, or a
transient client error. -/
inductive ProbeOut where
  | done
  | notYet
  | transient
deriving DecidableEq, Repr

/-- Spec-side loop result. -/
inductive PollRes where
  | success
  | timeout (elapsed : Nat)
  | clientFailure
deriving DecidableEq, Repr

/-- The generic polling loop exactly as the specification words it
(§4.2 steps 2-5): on `notYet`, fail with a timeout reporting the
accumulated elapsed when `elapsed ≥ max_wait`, else add `poll_interval`;
on `transient`, bump the error counter, fail with the client error when
it reaches `max_errors`, else add `error_wait`. -/
def pollLoopSpec (out : Nat → ProbeOut) (cfg : PollingConfig) :
    Nat → Nat → Nat → Nat → Option PollRes
  | 0, _, _, _ => none
  | fuel + 1, k, w, e =>
    match out k with
    | .done => some .success
    | .notYet =>
      if cfg.maxWait ≤ w then some (.timeout w)
      else pollLoopSpec out cfg fuel (k + 1) (w + cfg.pollInterval) e
    | .transient =>
      if cfg.maxErrors ≤ e + 1 then some .clientFailure
      else pollLoopSpec out cfg fuel (k + 1) (w + cfg.errorWait) (e + 1)

/-- Spec-side loop end to end: `elapsed` starts at `initial_wait`
(§4.2 step 1). -/
def pollSpec (out : Nat → ProbeOut) (cfg : PollingConfig) (fuel : Nat) :
    Option PollRes :=
  pollLoopSpec out cfg fuel 0 cfg.initialWait 0

/-- Classify a StatefulSet probe as the spec does (`okNoStatus` has no
spec-side counterpart; it is mapped to `notYet` and excluded by
hypothesis where it matters). -/
def stsClassify (target : Int) : StsProbe → ProbeOut
  | .okStatus s =>
    if s.currentReplicas.getD 0 = target ∧ s.availableReplicas.getD 0 = target then
      .done
    else .notYet
  | .okNoStatus => .notYet
  | .clientErr => .transient

/-- Classify a pod probe as the spec does (absence is the condition). -/
def podClassify : PodProbe → ProbeOut
  | .present => .notYet
  | .absent => .done
  | .clientErr => .transient

/-- Classify a job probe as the spec does. -/
def jobClassify : JobProbe → ProbeOut
  | .okJob active =>
    if active = some 0 ∨ active = none then .done else .notYet
  | .clientErr => .transient

/-- Abstract a StatefulSet wait result to the spec-side result
(`statefulSetHasNoStatus` has no spec-side counterpart; it is excluded by
hypothesis where it matters). -/
def absSts : Option (Except StsWaitErr StsStatus) → Option PollRes
  | none => none
  | some (.ok _) => some .success
  | some (.error (.statefulSetScaledCheckTimeout w)) => some (.timeout w)
  | some (.error .kubeClient) => some .clientFailure
  | some (.error .statefulSetHasNoStatus) => some .clientFailure

/-- Abstract a pod wait result to the spec-side result. -/
def absPod : Option (Except PodWaitErr Unit) → Option PollRes
  | none => none
  | some (.ok _) => some .success
  | some (.error (.podShutdownCheckTimeout w)) => some (.timeout w)
  | some (.error .kubeClient) => some .clientFailure

/-- Abstract a job wait result to the spec-side result. -/
def absJob : Option (Except JobWaitErr (Option Int)) → Option PollRes
  | none => none
  | some (.ok _) => some .success
  | some (.error (.jobCompletionCheckTimeout w)) => some (.timeout w)
  | some (.error .kubeClient) => some .clientFailure

/-! ### The daily task builder
    (src/routine/daily/mod.rs, lines 62-158) -/

/-- A configured after-snapshot job (custom_job.rs): only the
`dependencies` field is read by the builder. -/
structure CustomJobCfg where
  dependencies : List String
deriving DecidableEq, Repr

/-- A configured mcserver chart: its after-snapshot jobs (in BTreeMap
iteration order) and its `required_to_start` flag. -/
structure McChartCfg where
  jobsAfterSnapshot : List (String × CustomJobCfg)
  requiredToStart : Bool
deriving DecidableEq, Repr

/-- The configuration read by the builder: `mcservers` in BTreeMap
iteration order. -/
structure DailyCfg where
  mcservers : List (String × McChartCfg)
deriving DecidableEq, Repr

/-- Task name execute_job/after_snapshot/(server)/(job), as formatted at mod.rs line 104. -/
def execJobName (server job : String) : String :=
  "execute_job/after_snapshot/" ++ server ++ "/" ++ job

/-- Task name shutdown_mcserver/(server), as formatted at mod.rs line 84. -/
def shutdownServerName (server : String) : String :=
  "shutdown_mcserver/" ++ server

/-- Task name relaunch_mcserver/(server), as formatted at mod.rs line 135. -/
def relaunchServerName (server : String) : String :=
  "relaunch_mcserver/" ++ server

/-- Builder `build_daily_tasks` (mod.rs lines 62-158), keeping each task's name
and dependency list in push order. -/
def buildDailyTasks (cfg : DailyCfg) : List TaskSpec :=
  [⟨"argocd_teardown", []⟩,
   ⟨"shutdown_mcproxy", ["argocd_teardown"]⟩]
  ++ cfg.mcservers.map (fun s =>
       ⟨shutdownServerName s.1, ["shutdown_mcproxy"]⟩)
  ++ cfg.mcservers.bind (fun s => s.2.jobsAfterSnapshot.map (fun j =>
       ⟨execJobName s.1 j.1,
        j.2.dependencies.map (fun d => execJobName s.1 d)
          ++ [shutdownServerName s.1]⟩))
  ++ cfg.mcservers.map (fun s =>
       ⟨relaunchServerName s.1,
        s.2.jobsAfterSnapshot.map (fun j => execJobName s.1 j.1)
          ++ [shutdownServerName s.1]⟩)
  ++ [⟨"relaunch_mcproxy",
       (cfg.mcservers.filter (fun s => s.2.requiredToStart)).map
           (fun s => relaunchServerName s.1)
         ++ ["shutdown_mcproxy"]⟩]

/-- The node-and-dependency layout claimed by the specification (§4.7),
written from its words. -/
def ClaimedDailyTask (cfg : DailyCfg) (t : TaskSpec) : Prop :=
  t = ⟨"argocd_teardown", []⟩
  ∨ t = ⟨"shutdown_mcproxy", ["argocd_teardown"]⟩
  ∨ (∃ s, s ∈ cfg.mcservers ∧
      t = ⟨shutdownServerName s.1, ["shutdown_mcproxy"]⟩)
  ∨ (∃ s, s ∈ cfg.mcservers ∧ ∃ j, j ∈ s.2.jobsAfterSnapshot ∧
      t = ⟨execJobName s.1 j.1,
           j.2.dependencies.map (fun d => execJobName s.1 d)
             ++ [shutdownServerName s.1]⟩)
  ∨ (∃ s, s ∈ cfg.mcservers ∧
      t = ⟨relaunchServerName s.1,
           s.2.jobsAfterSnapshot.map (fun j => execJobName s.1 j.1)
             ++ [shutdownServerName s.1]⟩)
  ∨ t = ⟨"relaunch_mcproxy",
         (cfg.mcservers.filter (fun s => s.2.requiredToStart)).map
             (fun s => relaunchServerName s.1)
           ++ ["shutdown_mcproxy"]⟩

/-! ### scale_statefulset_to_zero
    (statefulset.rs lines 59-123; routine/daily/scale_statefulset.rs is
    the identical variant) -/

/-- The `spec` field of a StatefulSet as read by the function. -/
structure StsSpecObj where
  replicas : Option Int
deriving DecidableEq, Repr

/-- A fetched StatefulSet object. -/
structure StsObject where
  spec : Option StsSpecObj
deriving DecidableEq, Repr

/-- Errors `StatefulSetScaleError` restricted to the constructors this function
produces (lines 12-25). -/
inductive ScaleErr where
  | kubeClient
  | statefulSetHasNoReplicas
deriving DecidableEq, Repr

/-- Function `scale_statefulset_to_zero` (lines 59-123). `getRes` models
`api.get` (line 68), `patchRes` the merge patch `api.patch` (line 107).
Returns the Rust result paired with whether the patch was issued. The
case split of lines 80-122: current replicas equal to the target skips
the patch with `Ok(false)`; a missing `spec.replicas` fails with
`StatefulSetHasNoReplicas` and no patch; otherwise the merge patch is
issued and `Ok(true)` returned on success. -/
def scaleStatefulsetToZero (getRes : Except Unit StsObject)
    (patchRes : Except Unit Unit) (target : Int) :
    Except ScaleErr Bool × Bool :=
  match getRes with
  | .error _ => (.error .kubeClient, false)
  | .ok sts =>
    match sts.spec.bind (fun s => s.replicas) with
    | some current =>
      if current = target then (.ok false, false)
      else
        match patchRes with
        | .ok _ => (.ok true, true)
        | .error _ => (.error .kubeClient, true)
    | none => (.error .statefulSetHasNoReplicas, false)

/-! ### Validation lemmas for `from_tasks` -/

theorem isOk_ok {ε α : Type} (a : α) : (Except.ok a : Except ε α).isOk = true := rfl

theorem isOk_error {ε α : Type} (e : ε) : (Except.error e : Except ε α).isOk = false := rfl

theorem buildTasksMap_ok_val {acc ts m : List TaskSpec}
    (h : buildTasksMap acc ts = .ok m) : m = acc ++ ts := by
  induction ts generalizing acc with
  | nil =>
    simp only [buildTasksMap] at h
    cases h; simp
  | cons t rest ih =>
    simp only [buildTasksMap] at h
    by_cases hc : (acc.map (fun s => s.name)).contains t.name = true
    · rw [if_pos hc] at h; cases h
    · rw [if_neg hc] at h
      simpa [List.append_assoc] using ih h

theorem buildTasksMap_isOk_iff (ts : List TaskSpec) :
    ∀ acc : List TaskSpec, (acc.map (fun s => s.name)).Nodup →
      ((buildTasksMap acc ts).isOk = true ↔
        ((acc ++ ts).map (fun s => s.name)).Nodup) := by
  induction ts with
  | nil => intro acc h; simpa [buildTasksMap, isOk_ok] using h
  | cons t rest ih =>
    intro acc h
    simp only [buildTasksMap]
    by_cases hc : (acc.map (fun s => s.name)).contains t.name = true
    · have hmem : t.name ∈ acc.map (fun s => s.name) := by simpa using hc
      rw [if_pos hc]
      constructor
      · intro hfalse; simp [isOk_error] at hfalse
      · intro hnd
        exfalso
        simp only [List.map_append, List.nodup_append] at hnd
        exact hnd.2.2 hmem (by simp)
    · have hfresh : t.name ∉ acc.map (fun s => s.name) := by
        intro hm; exact hc (by simpa using hm)
      rw [if_neg hc]
      have hnd' : ((acc ++ [t]).map (fun s => s.name)).Nodup := by
        simp [List.nodup_append, h, hfresh]
      have := ih (acc ++ [t]) hnd'
      simpa [List.append_assoc] using this

theorem buildTasksMap_error_kind {acc ts : List TaskSpec} {e : InvalidDagError}
    (h : buildTasksMap acc ts = .error e) : ∃ n, e = .DuplicateTaskName n := by
  induction ts generalizing acc with
  | nil => simp [buildTasksMap] at h
  | cons t rest ih =>
    simp only [buildTasksMap] at h
    by_cases hc : (acc.map (fun s => s.name)).contains t.name = true
    · rw [if_pos hc] at h
      cases h
      exact ⟨t.name, rfl⟩
    · rw [if_neg hc] at h
      exact ih h

theorem addTaskEdges_isOk_iff (names : List String) (tn : String) (ds : List String) :
    ∀ tb, ((addTaskEdges names tn tb ds).isOk = true ↔ ∀ d ∈ ds, d ∈ names) := by
  induction ds with
  | nil => intro tb; simp [addTaskEdges, isOk_ok]
  | cons d rest ih =>
    intro tb
    simp only [addTaskEdges]
    by_cases hc : names.contains d = true
    · rw [if_pos hc]
      rw [ih]
      constructor
      · intro hr x hx
        rcases List.mem_cons.mp hx with h1 | h2
        · subst h1; simpa using hc
        · exact hr x h2
      · intro hall x hx; exact hall x (List.mem_cons_of_mem _ hx)
    · rw [if_neg hc]
      constructor
      · intro hfalse; simp [isOk_error] at hfalse
      · intro hall
        exact absurd (hall d (by simp)) (by intro hm; exact hc (by simpa using hm))

theorem addTaskEdges_error_kind {names : List String} {tn : String} {ds : List String}
    {tb} {e : InvalidDagError} (h : addTaskEdges names tn tb ds = .error e) :
    ∃ t d, e = .UnknownDependency t d := by
  induction ds generalizing tb with
  | nil => simp [addTaskEdges] at h
  | cons d rest ih =>
    simp only [addTaskEdges] at h
    by_cases hc : names.contains d = true
    · rw [if_pos hc] at h
      exact ih h
    · rw [if_neg hc] at h
      cases h
      exact ⟨tn, d, rfl⟩

theorem buildTables_isOk_iff (names : List String) (ts : List TaskSpec) :
    ∀ tb, ((buildTables names tb ts).isOk = true ↔
      ∀ t ∈ ts, ∀ d ∈ t.deps, d ∈ names) := by
  induction ts with
  | nil => intro tb; simp [buildTables, isOk_ok]
  | cons t rest ih =>
    intro tb
    simp only [buildTables, bind, Except.bind]
    rcases he : addTaskEdges names t.name (alInit tb.1 t.name, tb.2) t.deps with e | tb'
    · have hdep : ¬ (∀ d ∈ t.deps, d ∈ names) := by
        intro hall
        have := (addTaskEdges_isOk_iff names t.name t.deps
          (alInit tb.1 t.name, tb.2)).mpr hall
        rw [he] at this; simp [isOk_error] at this
      constructor
      · intro hfalse; simp [isOk_error] at hfalse
      · intro hall
        exact absurd (fun d hd => hall t (by simp) d hd) hdep
    · have hdep : ∀ d ∈ t.deps, d ∈ names := by
        have := (addTaskEdges_isOk_iff names t.name t.deps
          (alInit tb.1 t.name, tb.2)).mp (by rw [he]; rfl)
        exact this
      rw [ih tb']
      constructor
      · intro hr x hx
        rcases List.mem_cons.mp hx with h1 | h2
        · subst h1; exact hdep
        · exact hr x h2
      · intro hall x hx; exact hall x (List.mem_cons_of_mem _ hx)

theorem buildTables_error_kind {names : List String} {ts : List TaskSpec}
    {tb} {e : InvalidDagError} (h : buildTables names tb ts = .error e) :
    ∃ t d, e = .UnknownDependency t d := by
  induction ts generalizing tb with
  | nil => simp [buildTables] at h
  | cons t rest ih =>
    simp only [buildTables, bind, Except.bind] at h
    rcases he : addTaskEdges names t.name (alInit tb.1 t.name, tb.2) t.deps with e' | tb'
    · rw [he] at h
      cases h
      exact addTaskEdges_error_kind he
    · rw [he] at h
      exact ih h

theorem buildTasksMap_nil_ok {ts : List TaskSpec}
    (h : (ts.map (fun t => t.name)).Nodup) : buildTasksMap [] ts = .ok ts := by
  have hiff := buildTasksMap_isOk_iff ts [] (by simp)
  simp only [List.nil_append] at hiff
  rcases hm : buildTasksMap [] ts with e | m
  · rw [hm] at hiff; simp only [isOk_error] at hiff
    exact absurd h (by rw [← hiff]; simp)
  · have := buildTasksMap_ok_val hm
    simp only [List.nil_append] at this
    rw [this]

/-- C3 counterexample: the one-task set `{a}` where `a` depends on itself is
a cycle, yet `from_tasks` accepts it (there is no cycle check, and
`InvalidDagError` has no `Cycle` variant). -/
theorem fromTasks_accepts_self_cycle :
    (fromTasks [⟨"a", ["a"]⟩]).isOk = true ∧
      "a" ∈ (TaskSpec.mk "a" ["a"]).deps := by
  constructor
  · rfl
  · simp

/-- C3 (amended): `Scheduler::from_tasks` succeeds iff the task specs have
no duplicate names and no unknown dependency; a duplicate name yields
`DuplicateTaskName` and (absent duplicates) an unknown dependency yields
`UnknownDependency`. Cycles are not checked at construction and no `Cycle`
variant exists in `InvalidDagError`. -/
theorem fromTasks_ok_iff (ts : List TaskSpec) :
    ((fromTasks ts).isOk = true ↔
      ((ts.map (fun t => t.name)).Nodup ∧
        ∀ t ∈ ts, ∀ d ∈ t.deps, d ∈ ts.map (fun t => t.name))) ∧
    (¬ (ts.map (fun t => t.name)).Nodup →
      ∃ n, fromTasks ts = .error (.DuplicateTaskName n)) ∧
    ((ts.map (fun t => t.name)).Nodup →
      ¬ (∀ t ∈ ts, ∀ d ∈ t.deps, d ∈ ts.map (fun t => t.name)) →
      ∃ t d, fromTasks ts = .error (.UnknownDependency t d)) := by
  have hmap := buildTasksMap_isOk_iff ts [] (by simp)
  simp only [List.nil_append] at hmap
  refine ⟨⟨?_, ?_⟩, ?_, ?_⟩
  · intro hok
    rcases hm : buildTasksMap [] ts with e | m
    · simp only [fromTasks, hm, isOk_error] at hok
      exact absurd hok (by simp)
    · have hval : m = ts := by simpa using buildTasksMap_ok_val hm
      rw [hval] at hm
      have hnd : (ts.map (fun t => t.name)).Nodup := by
        rw [← hmap, hm]; rfl
      refine ⟨hnd, ?_⟩
      simp only [fromTasks, hm] at hok
      rcases ht : buildTables (ts.map (fun t => t.name)) ([], []) ts with e | tb
      · rw [ht] at hok; simp only [isOk_error] at hok; exact absurd hok (by simp)
      · exact (buildTables_isOk_iff _ ts ([], [])).mp (by rw [ht]; rfl)
  · rintro ⟨hnd, hdep⟩
    have hm : buildTasksMap [] ts = .ok ts := buildTasksMap_nil_ok hnd
    have hok2 : (buildTables (ts.map (fun t => t.name)) ([], []) ts).isOk = true :=
      (buildTables_isOk_iff _ ts ([], [])).mpr hdep
    rcases ht : buildTables (ts.map (fun t => t.name)) ([], []) ts with e | tb
    · rw [ht] at hok2; simp [isOk_error] at hok2
    · simp only [fromTasks, hm, ht]; rfl
  · intro hnd
    have hne : ¬ (buildTasksMap [] ts).isOk = true := by rw [hmap]; exact hnd
    rcases hm : buildTasksMap [] ts with e | m
    · rcases buildTasksMap_error_kind hm with ⟨n, hn⟩
      refine ⟨n, ?_⟩
      simp only [fromTasks, hm, hn]
    · rw [hm] at hne; simp [isOk_ok] at hne
  · intro hnd hdep
    have hm : buildTasksMap [] ts = .ok ts := buildTasksMap_nil_ok hnd
    have hne : ¬ (buildTables (ts.map (fun t => t.name)) ([], []) ts).isOk = true := by
      rw [buildTables_isOk_iff]; exact hdep
    rcases ht : buildTables (ts.map (fun t => t.name)) ([], []) ts with e | tb
    · rcases buildTables_error_kind ht with ⟨t, d, he⟩
      refine ⟨t, d, ?_⟩
      simp only [fromTasks, hm, ht, he]
    · rw [ht] at hne; simp [isOk_ok] at hne

/-- Witness for `fromTasks_ok_iff` at a concrete duplicated-name input. -/
theorem fromTasks_ok_iff_witness :
    ((fromTasks [⟨"a", []⟩, ⟨"a", []⟩]).isOk = true ↔
      ((([⟨"a", []⟩, ⟨"a", []⟩] : List TaskSpec).map (fun t => t.name)).Nodup ∧
        ∀ t ∈ ([⟨"a", []⟩, ⟨"a", []⟩] : List TaskSpec), ∀ d ∈ t.deps,
          d ∈ ([⟨"a", []⟩, ⟨"a", []⟩] : List TaskSpec).map (fun t => t.name))) ∧
    (¬ ((([⟨"a", []⟩, ⟨"a", []⟩] : List TaskSpec).map (fun t => t.name)).Nodup) →
      ∃ n, fromTasks [⟨"a", []⟩, ⟨"a", []⟩] = .error (.DuplicateTaskName n)) ∧
    (((([⟨"a", []⟩, ⟨"a", []⟩] : List TaskSpec).map (fun t => t.name)).Nodup) →
      ¬ (∀ t ∈ ([⟨"a", []⟩, ⟨"a", []⟩] : List TaskSpec), ∀ d ∈ t.deps,
          d ∈ ([⟨"a", []⟩, ⟨"a", []⟩] : List TaskSpec).map (fun t => t.name)) →
      ∃ t d, fromTasks [⟨"a", []⟩, ⟨"a", []⟩] = .error (.UnknownDependency t d)) :=
  fromTasks_ok_iff [⟨"a", []⟩, ⟨"a", []⟩]


/-! ### C2: behaviour of `Scheduler::run` on the first task error -/

theorem spawnLoop_trace (sd : Nat → Bool) (q : List String) :
    ∀ s : RunSt, ∃ ext, (spawnLoop sd q s).trace = s.trace ++ ext ∧
      ∀ e ∈ ext, (∃ b, e = Ev.sample b) ∨ (∃ n, e = Ev.spawn n) := by
  induction q with
  | nil => intro s; exact ⟨[], by simp [spawnLoop]⟩
  | cons n rest ih =>
    intro s
    rw [spawnLoop]
    by_cases hb : sd s.time = true
    · rw [if_pos hb]
      refine ⟨[Ev.sample (sd s.time)], by simp, ?_⟩
      intro e he; rw [List.mem_singleton] at he; subst he; exact Or.inl ⟨_, rfl⟩
    · rw [if_neg hb]
      obtain ⟨ext, hext, hall⟩ := ih
        { s with
          time := s.time + 1
          trace := s.trace ++ [Ev.sample (sd s.time), Ev.spawn n]
          tasks := s.tasks.filter (fun t => t.name ≠ n)
          inflight := s.inflight ++ [n] }
      refine ⟨[Ev.sample (sd s.time), Ev.spawn n] ++ ext, ?_, ?_⟩
      · rw [hext]; simp
      · intro e he
        rcases List.mem_append.mp he with h1 | h2
        · rw [List.mem_cons] at h1
          rcases h1 with h1 | h1
          · exact Or.inl ⟨_, h1⟩
          · rw [List.mem_singleton] at h1; exact Or.inr ⟨_, h1⟩
        · exact hall e h2

theorem processDeps_trace (sd : Nat → Bool) (L : List String) :
    ∀ s : RunSt, ∃ ext, (processDeps sd L s).trace = s.trace ++ ext ∧
      ∀ e ∈ ext, ∃ b, e = Ev.sample b := by
  induction L with
  | nil => intro s; exact ⟨[], by simp [processDeps]⟩
  | cons d rest ih =>
    intro s
    rw [processDeps]
    by_cases h0 : alNat (alDec s.indeg d) d = 0
    · rw [if_pos h0]
      by_cases hb : sd s.time = true
      · rw [if_pos hb]
        obtain ⟨ext, hext, hall⟩ := ih
          { s with
              indeg := alDec s.indeg d
              time := s.time + 1
              trace := s.trace ++ [Ev.sample (sd s.time)] }
        refine ⟨[Ev.sample (sd s.time)] ++ ext, ?_, ?_⟩
        · rw [hext]; simp
        · intro e he
          rcases List.mem_append.mp he with h1 | h2
          · rw [List.mem_singleton] at h1; exact ⟨_, h1⟩
          · exact hall e h2
      · rw [if_neg hb]
        obtain ⟨ext, hext, hall⟩ := ih
          { s with
              indeg := alDec s.indeg d
              time := s.time + 1
              trace := s.trace ++ [Ev.sample (sd s.time)]
              ready := s.ready ++ [d] }
        refine ⟨[Ev.sample (sd s.time)] ++ ext, ?_, ?_⟩
        · rw [hext]; simp
        · intro e he
          rcases List.mem_append.mp he with h1 | h2
          · rw [List.mem_singleton] at h1; exact ⟨_, h1⟩
          · exact hall e h2
    · rw [if_neg h0]
      obtain ⟨ext, hext, hall⟩ := ih { s with indeg := alDec s.indeg d }
      exact ⟨ext, by rw [hext], hall⟩

theorem headCheck_def (sd : Nat → Bool) (s : RunSt) :
    headCheck sd s =
      { s with
        time := s.time + 1
        trace := s.trace ++ [.sample (sd s.time)]
        ready := if sd s.time then [] else s.ready } := by
  cases h : sd s.time <;> simp [headCheck, h]

theorem runStep_cases (sch : Scheduler) (sd : Nat → Bool) (pick : Nat → Nat)
    (res : String → Bool) (s : RunSt) :
    (runStep sch sd pick res s = .stop .ok s) ∨
    (∃ s2, runStep sch sd pick res s = .next s2 ∧ ∃ ext, s2.trace = s.trace ++ ext ∧
      ∀ m, Ev.joinErr m ∉ ext) ∨
    (∃ n s2, runStep sch sd pick res s = .stop (.err n) s2 ∧
      ∃ ext, s2.trace = s.trace ++ ext ++ [Ev.joinErr n] ∧ ∀ m, Ev.joinErr m ∉ ext) := by
  have hpre : ∃ ext, (preJoinSt sd s).trace = s.trace ++ ext ∧
      ∀ m, Ev.joinErr m ∉ ext := by
    obtain ⟨ext, hext, hall⟩ :=
      spawnLoop_trace sd (headCheck sd s).ready { headCheck sd s with ready := [] }
    refine ⟨[Ev.sample (sd s.time)] ++ ext, ?_, ?_⟩
    · show (preJoinSt sd s).trace = _
      rw [preJoinSt]
      rw [hext]
      have htr : ({ headCheck sd s with ready := [] } : RunSt).trace
          = s.trace ++ [Ev.sample (sd s.time)] := by
        rw [headCheck_def]
      rw [htr, List.append_assoc]
    · intro m hm
      rcases List.mem_append.mp hm with h1 | h2
      · simp at h1
      · rcases hall _ h2 with ⟨b, hb⟩ | ⟨nn, hn⟩
        · simp at hb
        · simp at hn
  by_cases hempty : (s.ready.isEmpty = true ∧ s.inflight.isEmpty = true)
  · left
    simp [runStep, hempty]
  · rw [runStep, if_neg hempty]
    obtain ⟨ext0, hext0, hall0⟩ := hpre
    generalize hG : preJoinSt sd s = sC at hext0 ⊢
    cases hfl : sC.inflight with
    | nil =>
      exact Or.inr (Or.inl ⟨sC, rfl, ext0, hext0, hall0⟩)
    | cons x xs =>
      simp only [joinStep]
      set idx := pick sC.time % (x :: xs).length with hidx
      set n := (x :: xs).getD idx x with hn
      cases hres : res n with
      | true =>
        rw [if_pos rfl]
        refine Or.inr (Or.inl ⟨_, rfl, ?_⟩)
        obtain ⟨ext2, hext2, hall2⟩ := processDeps_trace sd (revEdgesOf sch n)
          { sC with
              inflight := (x :: xs).eraseIdx idx
              trace := sC.trace ++ [Ev.joinOk n] }
        refine ⟨ext0 ++ [Ev.joinOk n] ++ ext2, ?_, ?_⟩
        · rw [hext2]
          show (sC.trace ++ [Ev.joinOk n]) ++ ext2 = _
          rw [hext0]
          simp [List.append_assoc]
        · intro m hm
          rcases List.mem_append.mp hm with h1 | h2
          · rcases List.mem_append.mp h1 with h3 | h4
            · exact hall0 m h3
            · simp at h4
          · obtain ⟨b, hb⟩ := hall2 _ h2
            simp at hb
      | false =>
        rw [if_neg (by simp)]
        refine Or.inr (Or.inr ⟨n, _, rfl, ext0, ?_, hall0⟩)
        show sC.trace ++ [Ev.joinErr n] = _
        rw [hext0]

/-- C2 (amended): once some task returns an error, the run returns at once
with that first error; the trace ends at that `joinErr` and contains no
other `joinErr`. -/
theorem runLoop_first_error (sch : Scheduler) (sd : Nat → Bool) (pick : Nat → Nat)
    (res : String → Bool) :
    ∀ (fuel : Nat) (s : RunSt) (n : String) (st : RunSt),
      (∀ m, Ev.joinErr m ∉ s.trace) →
      runLoop sch sd pick res fuel s = some (.err n, st) →
      ∃ pre, st.trace = pre ++ [Ev.joinErr n] ∧ ∀ m, Ev.joinErr m ∉ pre := by
  intro fuel
  induction fuel with
  | zero => intro s n st _ hrun; simp [runLoop] at hrun
  | succ fuel ih =>
    intro s n st hclean hrun
    rw [runLoop] at hrun
    rcases runStep_cases sch sd pick res s with hok | ⟨s2, hnext, ext, hext, hall⟩ |
        ⟨n2, s2, hstop, ext, hext, hall⟩
    · rw [hok] at hrun
      simp at hrun
    · rw [hnext] at hrun
      refine ih s2 n st ?_ hrun
      intro m hm
      rw [hext] at hm
      rcases List.mem_append.mp hm with h1 | h2
      · exact hclean m h1
      · exact hall m h2
    · rw [hstop] at hrun
      simp at hrun
      obtain ⟨hn, hst⟩ := hrun
      subst hn; subst hst
      refine ⟨s.trace ++ ext, by rw [hext], ?_⟩
      intro m hm
      rcases List.mem_append.mp hm with h1 | h2
      · exact hclean m h1
      · exact hall m h2


/-- C2 at the `Scheduler::run` level. -/
theorem scheduler_first_error_immediate (sch : Scheduler) (sd : Nat → Bool)
    (pick : Nat → Nat) (res : String → Bool) (fuel : Nat) (n : String) (st : RunSt)
    (hrun : schedulerRun sch sd pick res fuel = some (.err n, st)) :
    ∃ pre, st.trace = pre ++ [Ev.joinErr n] ∧ ∀ m, Ev.joinErr m ∉ pre :=
  runLoop_first_error sch sd pick res fuel (initSt sch) n st
    (by intro m hm; simp [initSt] at hm) hrun

/-- Witness for `scheduler_first_error_immediate` on the concrete
two-task run where `a` fails. -/
theorem scheduler_first_error_immediate_witness :
    ∃ pre,
      (RunSt.mk [] [] ["b"] [("a", 0), ("b", 0)] 3
        [Ev.sample false, Ev.sample false, Ev.spawn "a", Ev.sample false,
         Ev.spawn "b", Ev.joinErr "a"]).trace = pre ++ [Ev.joinErr "a"] ∧
      ∀ m, Ev.joinErr m ∉ pre :=
  scheduler_first_error_immediate c2sched (fun _ => false) (fun _ => 0)
    (fun n => n != "a") 10 "a"
    (RunSt.mk [] [] ["b"] [("a", 0), ("b", 0)] 3
      [Ev.sample false, Ev.sample false, Ev.spawn "a", Ev.sample false,
       Ev.spawn "b", Ev.joinErr "a"])
    (by decide)

/-- C2 counterexample: in the two-task run where `a` fails, the scheduler
returns `a`'s error while `b` is still in flight — `b` was spawned but
never joined (the `JoinSet` holding it is dropped on return), so the
scheduler does not await in-flight tasks before surfacing the error. -/
theorem scheduler_error_abandons_inflight :
    (c2run.map Prod.fst) = some (RunOutcome.err "a") ∧
    (c2run.map (fun r => r.2.inflight)).getD [] = ["b"] ∧
    Ev.spawn "b" ∈ ((c2run.map (fun r => r.2.trace)).getD []) ∧
    Ev.joinOk "b" ∉ ((c2run.map (fun r => r.2.trace)).getD []) ∧
    Ev.joinErr "b" ∉ ((c2run.map (fun r => r.2.trace)).getD []) := by
  refine ⟨by decide, by decide, by decide, by decide, by decide⟩

/-! ### C6: shutdown prevents admission -/

theorem sps_append_nonspawn (tr : List Ev) (e : Ev)
    (h : spawnsPrecedeShutdown tr) (he : ∀ n, e ≠ Ev.spawn n) :
    spawnsPrecedeShutdown (tr ++ [e]) := by
  intro j n hj
  by_cases hlt : j < tr.length
  · rw [List.get?_append hlt] at hj
    rw [List.take_append_of_le_length (le_of_lt hlt)]
    exact h j n hj
  · rcases Nat.lt_or_ge j (tr ++ [e]).length with hlt2 | hge
    · have hj' : j = tr.length := by
        simp only [List.length_append, List.length_singleton] at hlt2
        omega
      subst hj'
      rw [List.get?_concat_length] at hj
      cases hj
      exact absurd rfl (he n)
    · rw [List.get?_eq_none.mpr hge] at hj
      cases hj

theorem sps_append_spawn (tr : List Ev) (n' : String)
    (h : spawnsPrecedeShutdown tr) (hclean : Ev.sample true ∉ tr) :
    spawnsPrecedeShutdown (tr ++ [Ev.spawn n']) := by
  intro j n hj
  by_cases hlt : j < tr.length
  · rw [List.get?_append hlt] at hj
    rw [List.take_append_of_le_length (le_of_lt hlt)]
    exact h j n hj
  · rcases Nat.lt_or_ge j (tr ++ [Ev.spawn n']).length with hlt2 | hge
    · have hj' : j = tr.length := by
        simp only [List.length_append, List.length_singleton] at hlt2
        omega
      subst hj'
      rw [List.take_append_of_le_length (le_refl _), List.take_length]
      exact hclean
    · rw [List.get?_eq_none.mpr hge] at hj
      cases hj

theorem sdinv_congr (sd : Nat → Bool) {s s' : RunSt} (h : SdInv sd s)
    (ht : s'.trace = s.trace) (htm : s'.time = s.time) : SdInv sd s' := by
  rw [SdInv, ht, htm]; exact h

theorem spawnLoop_sdinv (sd : Nat → Bool) (hmono : SdMonotone sd) (q : List String) :
    ∀ s : RunSt, SdInv sd s → SdInv sd (spawnLoop sd q s) := by
  induction q with
  | nil => intro s h; simpa [spawnLoop] using h
  | cons n rest ih =>
    intro s h
    rw [spawnLoop]
    by_cases hb : sd s.time = true
    · rw [if_pos hb]
      constructor
      · show spawnsPrecedeShutdown (s.trace ++ [Ev.sample (sd s.time)])
        exact sps_append_nonspawn _ _ h.1 (by intro n' hc; simp at hc)
      · intro _
        exact hmono s.time (s.time + 1) (by omega) hb
    · rw [if_neg hb]
      have hb' : sd s.time = false := by
        cases hbool : sd s.time
        · rfl
        · exact absurd hbool hb
      have hclean : Ev.sample true ∉ s.trace := fun hmem => hb (h.2 hmem)
      apply ih
      constructor
      · show spawnsPrecedeShutdown (s.trace ++ [Ev.sample (sd s.time), Ev.spawn n])
        have e1 : s.trace ++ [Ev.sample (sd s.time), Ev.spawn n]
            = (s.trace ++ [Ev.sample (sd s.time)]) ++ [Ev.spawn n] := by simp
        rw [e1]
        apply sps_append_spawn
        · exact sps_append_nonspawn _ _ h.1 (by intro n' hc; simp at hc)
        · intro hmem
          rcases List.mem_append.mp hmem with h1 | h2
          · exact hclean h1
          · rw [List.mem_singleton] at h2
            injection h2 with h3
            exact hb h3.symm
      · show Ev.sample true ∈ s.trace ++ [Ev.sample (sd s.time), Ev.spawn n] →
          sd (s.time + 1) = true
        intro hmem
        exfalso
        rcases List.mem_append.mp hmem with h1 | h2
        · exact hclean h1
        · rw [hb'] at h2
          simp at h2

theorem processDeps_sdinv (sd : Nat → Bool) (hmono : SdMonotone sd) (L : List String) :
    ∀ s : RunSt, SdInv sd s → SdInv sd (processDeps sd L s) := by
  induction L with
  | nil => intro s h; simpa [processDeps] using h
  | cons d rest ih =>
    intro s h
    rw [processDeps]
    by_cases h0 : alNat (alDec s.indeg d) d = 0
    · rw [if_pos h0]
      have hsamp : SdInv sd
          { s with
              indeg := alDec s.indeg d
              time := s.time + 1
              trace := s.trace ++ [Ev.sample (sd s.time)] } := by
        constructor
        · show spawnsPrecedeShutdown (s.trace ++ [Ev.sample (sd s.time)])
          exact sps_append_nonspawn _ _ h.1 (by intro n' hc; simp at hc)
        · show Ev.sample true ∈ s.trace ++ [Ev.sample (sd s.time)] →
            sd (s.time + 1) = true
          intro hmem
          rcases List.mem_append.mp hmem with h1 | h2
          · exact hmono s.time (s.time + 1) (by omega) (h.2 h1)
          · rw [List.mem_singleton] at h2
            injection h2 with h3
            exact hmono s.time (s.time + 1) (by omega) h3.symm
      by_cases hb : sd s.time = true
      · rw [if_pos hb]
        exact ih _ hsamp
      · rw [if_neg hb]
        apply ih
        exact sdinv_congr sd hsamp rfl rfl
    · rw [if_neg h0]
      apply ih
      exact sdinv_congr sd h rfl rfl

theorem headCheck_sdinv (sd : Nat → Bool) (hmono : SdMonotone sd) (s : RunSt)
    (h : SdInv sd s) : SdInv sd (headCheck sd s) := by
  rw [headCheck_def]
  constructor
  · show spawnsPrecedeShutdown (s.trace ++ [Ev.sample (sd s.time)])
    exact sps_append_nonspawn _ _ h.1 (by intro n' hc; simp at hc)
  · show Ev.sample true ∈ s.trace ++ [Ev.sample (sd s.time)] → sd (s.time + 1) = true
    intro hmem
    rcases List.mem_append.mp hmem with h1 | h2
    · exact hmono s.time (s.time + 1) (by omega) (h.2 h1)
    · rw [List.mem_singleton] at h2
      injection h2 with h3
      exact hmono s.time (s.time + 1) (by omega) h3.symm

theorem runStep_sdinv (sch : Scheduler) (sd : Nat → Bool) (pick : Nat → Nat)
    (res : String → Bool) (hmono : SdMonotone sd) (s : RunSt) (h : SdInv sd s) :
    (∀ s2, runStep sch sd pick res s = .next s2 → SdInv sd s2) ∧
    (∀ r s2, runStep sch sd pick res s = .stop r s2 → SdInv sd s2) := by
  have hC : SdInv sd (preJoinSt sd s) := by
    rw [preJoinSt]
    apply spawnLoop_sdinv sd hmono
    exact sdinv_congr sd (headCheck_sdinv sd hmono s h) rfl rfl
  by_cases hempty : (s.ready.isEmpty = true ∧ s.inflight.isEmpty = true)
  · constructor
    · intro s2 hn
      rw [runStep, if_pos hempty] at hn
      cases hn
    · intro r s2 hn
      rw [runStep, if_pos hempty] at hn
      cases hn
      exact h
  · have hmain : ∀ out, runStep sch sd pick res s = out →
        (∀ s2, out = .next s2 → SdInv sd s2) ∧
        (∀ r s2, out = .stop r s2 → SdInv sd s2) := by
      intro out hout
      rw [runStep, if_neg hempty] at hout
      rcases hfl : (preJoinSt sd s).inflight with _ | ⟨x, xs⟩
      · rw [hfl] at hout
        constructor
        · intro s2 hn
          rw [← hout] at hn
          cases hn
          exact hC
        · intro r s2 hn
          rw [← hout] at hn
          cases hn
      · rw [hfl] at hout
        simp only [joinStep] at hout
        set idx := pick (preJoinSt sd s).time % (x :: xs).length with hidx
        set n := (x :: xs).getD idx x with hn
        have hD : SdInv sd
            { preJoinSt sd s with inflight := (x :: xs).eraseIdx idx } :=
          sdinv_congr sd hC rfl rfl
        cases hres : res n with
        | true =>
          rw [hres, if_pos rfl] at hout
          constructor
          · intro s2 hnx
            rw [← hout] at hnx
            cases hnx
            apply processDeps_sdinv sd hmono
            constructor
            · show spawnsPrecedeShutdown ((preJoinSt sd s).trace ++ [Ev.joinOk n])
              exact sps_append_nonspawn _ _ hC.1 (by intro n' hc; simp at hc)
            · show Ev.sample true ∈ (preJoinSt sd s).trace ++ [Ev.joinOk n] →
                sd (preJoinSt sd s).time = true
              intro hmem
              rcases List.mem_append.mp hmem with h1 | h2
              · exact hC.2 h1
              · simp at h2
          · intro r s2 hnx
            rw [← hout] at hnx
            cases hnx
        | false =>
          rw [hres] at hout
          rw [if_neg (by simp)] at hout
          constructor
          · intro s2 hnx
            rw [← hout] at hnx
            cases hnx
          · intro r s2 hnx
            rw [← hout] at hnx
            cases hnx
            constructor
            · show spawnsPrecedeShutdown ((preJoinSt sd s).trace ++ [Ev.joinErr n])
              exact sps_append_nonspawn _ _ hC.1 (by intro n' hc; simp at hc)
            · show Ev.sample true ∈ (preJoinSt sd s).trace ++ [Ev.joinErr n] →
                sd (preJoinSt sd s).time = true
              intro hmem
              rcases List.mem_append.mp hmem with h1 | h2
              · exact hC.2 h1
              · simp at h2
    exact hmain _ rfl

theorem runLoop_sdinv (sch : Scheduler) (sd : Nat → Bool) (pick : Nat → Nat)
    (res : String → Bool) (hmono : SdMonotone sd) :
    ∀ (fuel : Nat) (s : RunSt) (r : RunOutcome) (st : RunSt), SdInv sd s →
      runLoop sch sd pick res fuel s = some (r, st) → SdInv sd st := by
  intro fuel
  induction fuel with
  | zero => intro s r st _ hrun; simp [runLoop] at hrun
  | succ fuel ih =>
    intro s r st h hrun
    rw [runLoop] at hrun
    cases hstep : runStep sch sd pick res s with
    | next s2 =>
      rw [hstep] at hrun
      exact ih s2 r st ((runStep_sdinv sch sd pick res hmono s h).1 s2 hstep) hrun
    | stop r2 s2 =>
      rw [hstep] at hrun
      simp at hrun
      obtain ⟨h1, h2⟩ := hrun
      rw [← h2]
      exact (runStep_sdinv sch sd pick res hmono s h).2 r2 s2 hstep

/-- C6: once `Shutdown::requested()` has returned `true`, no further task
body is started — in every run trace, every `spawn` strictly precedes
every `sample true`. The ready queue is cleared unused (lines 108-110), a
queued task popped after shutdown is dropped unspawned (lines 113-115),
and dependents reaching indegree zero are not enqueued (line 146). -/
theorem shutdown_prevents_admission (sch : Scheduler) (sd : Nat → Bool)
    (pick : Nat → Nat) (res : String → Bool) (fuel : Nat) (r : RunOutcome)
    (st : RunSt) (hmono : SdMonotone sd)
    (hrun : schedulerRun sch sd pick res fuel = some (r, st)) :
    spawnsPrecedeShutdown st.trace :=
  (runLoop_sdinv sch sd pick res hmono fuel (initSt sch) r st
    ⟨by intro j n hj; simp [initSt] at hj, by intro hmem; simp [initSt] at hmem⟩
    hrun).1

/-- Witness for `shutdown_prevents_admission`: under `c6sd` the dependent
task `b` reaches indegree zero after shutdown was requested and is never
spawned. -/
theorem shutdown_prevents_admission_witness :
    spawnsPrecedeShutdown [Ev.sample false, Ev.sample false, Ev.spawn "a",
      Ev.joinOk "a", Ev.sample true] :=
  shutdown_prevents_admission c5sched c6sd (fun _ => 0) (fun _ => true) 10 .ok
    (RunSt.mk [⟨"b", ["a"]⟩] [] [] [("a", 0), ("b", 0)] 3
      [Ev.sample false, Ev.sample false, Ev.spawn "a", Ev.joinOk "a",
       Ev.sample true])
    (by intro i j hij hi; simp [c6sd] at hi ⊢; omega)
    (by decide)


/-! ### Association-list lemmas -/

theorem find?_map_upd (f : Nat → Nat) (l : List (String × Nat)) (k : String) :
    (l.map (fun p => if p.1 = k then (p.1, f p.2) else p)).find? (fun p => p.1 = k)
      = (l.find? (fun p => p.1 = k)).map (fun p => (p.1, f p.2)) := by
  induction l with
  | nil => rfl
  | cons p rest ih =>
    by_cases h : p.1 = k
    · simp [List.find?, h]
    · simp [List.find?, h, ih]

theorem find?_map_upd_ne (f : Nat → Nat) (l : List (String × Nat)) (k k' : String)
    (hne : k' ≠ k) :
    (l.map (fun p => if p.1 = k then (p.1, f p.2) else p)).find? (fun p => p.1 = k')
      = l.find? (fun p => p.1 = k') := by
  induction l with
  | nil => rfl
  | cons p rest ih =>
    by_cases h1 : p.1 = k
    · have h2 : ¬ p.1 = k' := by rw [h1]; exact fun hc => hne hc.symm
      have h3 : ¬ (k = k') := fun hc => hne hc.symm
      simp [List.find?, h1, h2, h3, ih]
    · by_cases h2 : p.1 = k'
      · simp [List.find?, h1, h2, hne, ih]
      · simp [List.find?, h1, h2, ih]

theorem alNat_alDec_self (l : List (String × Nat)) (k : String) :
    alNat (alDec l k) k = alNat l k - 1 := by
  have hu := find?_map_upd (fun x => x - 1) l k
  rw [alNat, alDec, hu, alNat]
  rcases hf : l.find? (fun p => p.1 = k) with _ | p <;> rw [hf] <;> rfl

theorem alNat_alDec_ne (l : List (String × Nat)) (k k' : String) (hne : k' ≠ k) :
    alNat (alDec l k) k' = alNat l k' := by
  have hu := find?_map_upd_ne (fun x => x - 1) l k k' hne
  rw [alNat, alDec, hu, alNat]

theorem alNat_alIncr_self (l : List (String × Nat)) (k : String) :
    alNat (alIncr l k) k = alNat l k + 1 := by
  rw [alIncr]
  by_cases h : (l.find? (fun p => p.1 = k)).isSome = true
  · have hu := find?_map_upd (fun x => x + 1) l k
    rw [if_pos h, alNat, hu]
    rcases hf : l.find? (fun p => p.1 = k) with _ | p
    · rw [hf] at h; simp at h
    · simp [alNat, hf]
  · rw [if_neg h, alNat, List.find?_append]
    rcases hf : l.find? (fun p => p.1 = k) with _ | p
    · simp [alNat, hf, List.find?]
    · rw [hf] at h; simp at h

theorem alNat_alIncr_ne (l : List (String × Nat)) (k k' : String) (hne : k' ≠ k) :
    alNat (alIncr l k) k' = alNat l k' := by
  rw [alIncr]
  by_cases h : (l.find? (fun p => p.1 = k)).isSome = true
  · have hu := find?_map_upd_ne (fun x => x + 1) l k k' hne
    rw [if_pos h, alNat, hu, alNat]
  · rw [if_neg h, alNat, List.find?_append]
    have h3 : ¬ (k = k') := fun hc => hne hc.symm
    rcases hf : l.find? (fun p => p.1 = k') with _ | p
    · simp [alNat, hf, List.find?, h3]
    · simp [alNat, hf]

theorem alNat_alInit (l : List (String × Nat)) (k k' : String) :
    alNat (alInit l k) k' = alNat l k' := by
  rw [alInit]
  by_cases h : (l.find? (fun p => p.1 = k)).isSome = true
  · rw [if_pos h]
  · rw [if_neg h, alNat, List.find?_append]
    rcases hf : l.find? (fun p => p.1 = k') with _ | p
    · by_cases hkk : k' = k
      · subst hkk
        rw [hf] at h
        simp [alNat, hf, List.find?]
      · have h3 : ¬ (k = k') := fun hc => hkk hc.symm
        simp [alNat, hf, List.find?, h3]
    · simp [alNat, hf]

theorem find?_map_push (v : String) (l : List (String × List String)) (k : String) :
    (l.map (fun p => if p.1 = k then (p.1, p.2 ++ [v]) else p)).find? (fun p => p.1 = k)
      = (l.find? (fun p => p.1 = k)).map (fun p => (p.1, p.2 ++ [v])) := by
  induction l with
  | nil => rfl
  | cons p rest ih =>
    by_cases h : p.1 = k
    · simp [List.find?, h]
    · simp [List.find?, h, ih]

theorem find?_map_push_ne (v : String) (l : List (String × List String)) (k k' : String)
    (hne : k' ≠ k) :
    (l.map (fun p => if p.1 = k then (p.1, p.2 ++ [v]) else p)).find? (fun p => p.1 = k')
      = l.find? (fun p => p.1 = k') := by
  induction l with
  | nil => rfl
  | cons p rest ih =>
    by_cases h1 : p.1 = k
    · have h2 : ¬ p.1 = k' := by rw [h1]; exact fun hc => hne hc.symm
      have h3 : ¬ (k = k') := fun hc => hne hc.symm
      simp [List.find?, h1, h2, h3, ih]
    · by_cases h2 : p.1 = k'
      · simp [List.find?, h1, h2, hne, ih]
      · simp [List.find?, h1, h2, ih]

theorem alList_alPush_self (l : List (String × List String)) (k v : String) :
    alList (alPush l k v) k = alList l k ++ [v] := by
  rw [alPush]
  by_cases h : (l.find? (fun p => p.1 = k)).isSome = true
  · have hu := find?_map_push v l k
    rw [if_pos h, alList, hu]
    rcases hf : l.find? (fun p => p.1 = k) with _ | p
    · rw [hf] at h; simp at h
    · simp [alList, hf]
  · rw [if_neg h, alList, List.find?_append]
    rcases hf : l.find? (fun p => p.1 = k) with _ | p
    · simp [alList, hf, List.find?]
    · rw [hf] at h; simp at h

theorem alList_alPush_ne (l : List (String × List String)) (k k' v : String)
    (hne : k' ≠ k) : alList (alPush l k v) k' = alList l k' := by
  rw [alPush]
  by_cases h : (l.find? (fun p => p.1 = k)).isSome = true
  · have hu := find?_map_push_ne v l k k' hne
    rw [if_pos h, alList, hu, alList]
  · rw [if_neg h, alList, List.find?_append]
    have h3 : ¬ (k = k') := fun hc => hne hc.symm
    rcases hf : l.find? (fun p => p.1 = k') with _ | p
    · simp [alList, hf, List.find?, h3]
    · simp [alList, hf]

theorem alKeys_alDec (l : List (String × Nat)) (k : String) :
    (alDec l k).map (fun p => p.1) = l.map (fun p => p.1) := by
  rw [alDec, List.map_map]
  apply List.map_congr_left
  intro p _
  by_cases h : p.1 = k <;> simp [h]

theorem find?_isSome_iff_mem_keys (l : List (String × Nat)) (k : String) :
    (l.find? (fun p => p.1 = k)).isSome = true ↔ k ∈ l.map (fun p => p.1) := by
  induction l with
  | nil => simp [List.find?]
  | cons p rest ih =>
    by_cases h : p.1 = k
    · simp [List.find?, h]
    · have h2 : ¬ (k = p.1) := fun hc => h hc.symm
      simp [List.find?, h, h2, ih]

theorem alKeys_alIncr_nodup (l : List (String × Nat)) (k : String)
    (h : (l.map (fun p => p.1)).Nodup) :
    ((alIncr l k).map (fun p => p.1)).Nodup := by
  rw [alIncr]
  by_cases hs : (l.find? (fun p => p.1 = k)).isSome = true
  · rw [if_pos hs, List.map_map]
    have : (l.map ((fun p => p.1) ∘ fun p => if p.1 = k then (p.1, p.2 + 1) else p))
        = l.map (fun p => p.1) := by
      apply List.map_congr_left
      intro p _
      by_cases hp : p.1 = k <;> simp [hp]
    rw [this]
    exact h
  · rw [if_neg hs]
    rw [List.map_append]
    rw [List.nodup_append]
    refine ⟨h, by simp, ?_⟩
    intro a ha
    simp only [List.map_cons, List.map_nil, List.mem_singleton]
    intro hak
    subst hak
    exact hs ((find?_isSome_iff_mem_keys l a).mpr ha)

theorem alKeys_alInit_nodup (l : List (String × Nat)) (k : String)
    (h : (l.map (fun p => p.1)).Nodup) :
    ((alInit l k).map (fun p => p.1)).Nodup := by
  rw [alInit]
  by_cases hs : (l.find? (fun p => p.1 = k)).isSome = true
  · rw [if_pos hs]; exact h
  · rw [if_neg hs]
    rw [List.map_append, List.nodup_append]
    refine ⟨h, by simp, ?_⟩
    intro a ha
    simp only [List.map_cons, List.map_nil, List.mem_singleton]
    intro hak
    subst hak
    exact hs ((find?_isSome_iff_mem_keys l a).mpr ha)

/-! ### `pendingDeps` lemmas -/

theorem pendingDeps_congr {tr tr' : List Ev} (ds : List String)
    (h : ∀ d ∈ ds, (Ev.joinOk d ∈ tr' ↔ Ev.joinOk d ∈ tr)) :
    pendingDeps tr' ds = pendingDeps tr ds := by
  rw [pendingDeps, pendingDeps]
  apply List.countP_congr
  intro d hd
  have := h d hd
  by_cases hm : Ev.joinOk d ∈ tr
  · simp [hm, this.mpr hm]
  · have hm' : Ev.joinOk d ∉ tr' := fun hc => hm (this.mp hc)
    simp [hm, hm']

theorem pendingDeps_append_no_joinOk {tr : List Ev} {e : Ev} (ds : List String)
    (he : ∀ d, e ≠ Ev.joinOk d) :
    pendingDeps (tr ++ [e]) ds = pendingDeps tr ds := by
  apply pendingDeps_congr
  intro d _
  constructor
  · intro hm
    rcases List.mem_append.mp hm with h1 | h2
    · exact h1
    · rw [List.mem_singleton] at h2
      exact absurd h2.symm (he d)
  · intro hm
    exact List.mem_append.mpr (Or.inl hm)

theorem pendingDeps_zero {tr : List Ev} {ds : List String}
    (h : pendingDeps tr ds = 0) : ∀ d ∈ ds, Ev.joinOk d ∈ tr := by
  intro d hd
  have := List.countP_eq_zero.mp h d hd
  simp at this
  exact this

theorem pendingDeps_append_joinOk {tr : List Ev} (ds : List String) (nJ : String)
    (h : Ev.joinOk nJ ∉ tr) :
    pendingDeps tr ds = pendingDeps (tr ++ [Ev.joinOk nJ]) ds + ds.count nJ := by
  induction ds with
  | nil => rfl
  | cons d rest ih =>
    have hcnt : (d :: rest).count nJ = rest.count nJ + (if d = nJ then 1 else 0) := by
      by_cases hd : d = nJ <;> simp [hd, List.count_cons]
    have hstep : pendingDeps tr (d :: rest)
        = pendingDeps tr rest + (if Ev.joinOk d ∈ tr then 0 else 1) := by
      rw [pendingDeps, pendingDeps, List.countP_cons]
      by_cases hm : Ev.joinOk d ∈ tr <;> simp [hm]
    have hstep' : pendingDeps (tr ++ [Ev.joinOk nJ]) (d :: rest)
        = pendingDeps (tr ++ [Ev.joinOk nJ]) rest
          + (if Ev.joinOk d ∈ tr ++ [Ev.joinOk nJ] then 0 else 1) := by
      rw [pendingDeps, pendingDeps, List.countP_cons]
      by_cases hm : Ev.joinOk d ∈ tr ++ [Ev.joinOk nJ] <;> simp [hm]
    rw [hstep, hstep', hcnt, ih]
    by_cases hd : d = nJ
    · subst hd
      have hm2 : Ev.joinOk d ∈ tr ++ [Ev.joinOk d] := by simp
      rw [if_neg h, if_pos hm2, if_pos rfl]
      omega
    · have hiff : (Ev.joinOk d ∈ tr ++ [Ev.joinOk nJ]) ↔ Ev.joinOk d ∈ tr := by
        constructor
        · intro hm
          rcases List.mem_append.mp hm with h1 | h2
          · exact h1
          · rw [List.mem_singleton] at h2
            injection h2 with h3
            exact absurd h3 hd
        · intro hm; exact List.mem_append.mpr (Or.inl hm)
      rw [if_neg hd]
      by_cases hm : Ev.joinOk d ∈ tr
      · rw [if_pos hm, if_pos (hiff.mpr hm)]
        omega
      · rw [if_neg hm, if_neg (fun hc => hm (hiff.mp hc))]
        omega


/-! ### `from_tasks` produces a well-formed scheduler -/

theorem depsLenOf_cons (t : TaskSpec) (rest : List TaskSpec) (k : String) :
    depsLenOf (t :: rest) k
      = (if t.name = k then t.deps.length else 0) + depsLenOf rest k := by
  by_cases h : t.name = k <;> simp [depsLenOf, List.filter_cons, h]

theorem revContrib_cons (t : TaskSpec) (rest : List TaskSpec) (n m : String) :
    revContrib (t :: rest) n m
      = (if t.name = m then t.deps.count n else 0) + revContrib rest n m := by
  by_cases h : t.name = m <;> simp [revContrib, List.filter_cons, h]

theorem filter_name_eq_single {ts : List TaskSpec}
    (hnd : (ts.map (fun t => t.name)).Nodup) {t : TaskSpec} (ht : t ∈ ts) :
    ts.filter (fun u => u.name = t.name) = [t] := by
  induction ts with
  | nil => cases ht
  | cons u rest ih =>
    rw [List.map_cons, List.nodup_cons] at hnd
    by_cases h : u.name = t.name
    · have hut : u = t := by
        rcases List.mem_cons.mp ht with h1 | h1
        · exact h1.symm
        · exfalso
          exact hnd.1 (h ▸ (List.mem_map.mpr ⟨t, h1, rfl⟩))
      subst hut
      have hrest : rest.filter (fun u2 => u2.name = u.name) = [] := by
        rw [List.filter_eq_nil]
        intro v hv hc
        simp at hc
        exact hnd.1 (hc ▸ (List.mem_map.mpr ⟨v, hv, rfl⟩))
      simp [List.filter_cons, h, hrest]
    · have htr : t ∈ rest := by
        rcases List.mem_cons.mp ht with h1 | h1
        · exact absurd (by rw [h1]) h
        · exact h1
      rw [List.filter_cons]
      simp only [h, decide_False, Bool.false_eq_true, if_false]
      exact ih hnd.2 htr

theorem depsLenOf_self {ts : List TaskSpec}
    (hnd : (ts.map (fun t => t.name)).Nodup) {t : TaskSpec} (ht : t ∈ ts) :
    depsLenOf ts t.name = t.deps.length := by
  rw [depsLenOf, filter_name_eq_single hnd ht]
  simp

theorem revContrib_self {ts : List TaskSpec}
    (hnd : (ts.map (fun t => t.name)).Nodup) {t : TaskSpec} (ht : t ∈ ts)
    (n : String) : revContrib ts n t.name = t.deps.count n := by
  rw [revContrib, filter_name_eq_single hnd ht]
  simp

theorem addTaskEdges_effect {names : List String} {tn : String} :
    ∀ {ds : List String} {ind : List (String × Nat)} {rev : List (String × List String)}
      {out : List (String × Nat) × List (String × List String)},
      addTaskEdges names tn (ind, rev) ds = .ok out →
      (alNat out.1 tn = alNat ind tn + ds.length) ∧
      (∀ k, k ≠ tn → alNat out.1 k = alNat ind k) ∧
      (∀ n, alList out.2 n = alList rev n ++ List.replicate (ds.count n) tn) ∧
      ((ind.map (fun p => p.1)).Nodup → (out.1.map (fun p => p.1)).Nodup) := by
  intro ds
  induction ds with
  | nil =>
    intro ind rev out h
    simp only [addTaskEdges] at h
    cases h
    exact ⟨rfl, fun k _ => rfl, fun n => by simp, fun h => h⟩
  | cons d rest ih =>
    intro ind rev out h
    simp only [addTaskEdges] at h
    by_cases hc : names.contains d = true
    · rw [if_pos hc] at h
      obtain ⟨h1, h2, h3, h4⟩ := ih h
      refine ⟨?_, ?_, ?_, ?_⟩
      · rw [h1, alNat_alIncr_self]
        simp [Nat.add_assoc, Nat.add_comm 1 rest.length]
      · intro k hk
        rw [h2 k hk, alNat_alIncr_ne _ _ _ hk]
      · intro n
        rw [h3 n]
        by_cases hdn : d = n
        · subst hdn
          rw [alList_alPush_self, List.count_cons_self, List.replicate_succ,
            List.append_assoc]
          rfl
        · rw [alList_alPush_ne _ _ _ _ (fun hcc : n = d => hdn hcc.symm)]
          have : (d :: rest).count n = rest.count n := by
            rw [List.count_cons]
            simp [hdn]
          rw [this]
      · intro hnd
        exact h4 (alKeys_alIncr_nodup _ _ hnd)
    · rw [if_neg hc] at h
      cases h

theorem buildTables_effect {names : List String} :
    ∀ {ts : List TaskSpec} {ind : List (String × Nat)}
      {rev : List (String × List String)}
      {out : List (String × Nat) × List (String × List String)},
      buildTables names (ind, rev) ts = .ok out →
      (∀ k, alNat out.1 k = alNat ind k + depsLenOf ts k) ∧
      (∀ n m, (alList out.2 n).count m
        = (alList rev n).count m + revContrib ts n m) ∧
      (∀ n m, m ∈ alList out.2 n →
        m ∈ alList rev n ∨ ∃ t ∈ ts, t.name = m ∧ n ∈ t.deps) ∧
      ((ind.map (fun p => p.1)).Nodup → (out.1.map (fun p => p.1)).Nodup) := by
  intro ts
  induction ts with
  | nil =>
    intro ind rev out h
    simp only [buildTables] at h
    cases h
    exact ⟨fun k => by simp [depsLenOf], fun n m => by simp [revContrib],
      fun n m hm => Or.inl hm, fun h => h⟩
  | cons t rest ih =>
    intro ind rev out h
    simp only [buildTables, bind, Except.bind] at h
    rcases he : addTaskEdges names t.name (alInit ind t.name, rev) t.deps with e | tb2
    · rw [he] at h; cases h
    · rw [he] at h
      obtain ⟨e1, e2, e3, e4⟩ := addTaskEdges_effect he
      obtain ⟨i1, i2, i3, i4⟩ := ih h
      refine ⟨?_, ?_, ?_, ?_⟩
      · intro k
        rw [i1 k, depsLenOf_cons]
        by_cases hk : t.name = k
        · subst hk
          rw [e1, alNat_alInit, if_pos rfl]
          omega
        · rw [e2 k (fun hc => hk hc.symm), alNat_alInit]
          simp [hk]
      · intro n m
        rw [i2 n m, e3 n, revContrib_cons]
        rw [List.count_append]
        by_cases hm : t.name = m
        · subst hm
          rw [List.count_replicate_self, if_pos rfl]
          omega
        · have hrep : (List.replicate (t.deps.count n) t.name).count m = 0 := by
            apply List.count_eq_zero.mpr
            intro hc
            exact hm (List.eq_of_mem_replicate hc).symm
          rw [hrep]
          simp only [hm, if_false]
          omega
      · intro n m hm
        rcases i3 n m hm with h1 | h1
        · rw [e3 n] at h1
          rcases List.mem_append.mp h1 with h2 | h2
          · exact Or.inl h2
          · rw [List.mem_replicate] at h2
            right
            refine ⟨t, by simp, h2.2.symm, ?_⟩
            rcases Nat.eq_zero_or_pos (t.deps.count n) with hz | hp
            · rw [hz] at h2; exact absurd rfl h2.1
            · exact List.count_pos_iff_mem.mp hp
        · obtain ⟨t2, ht2, hname, hdep⟩ := h1
          exact Or.inr ⟨t2, List.mem_cons_of_mem _ ht2, hname, hdep⟩
      · intro hnd
        exact i4 (e4 (alKeys_alInit_nodup _ _ hnd))

theorem fromTasks_wf {specs : List TaskSpec} {sch : Scheduler}
    (h : fromTasks specs = .ok sch) : WFSched sch ∧ sch.tasks = specs := by
  rcases hm : buildTasksMap [] specs with e | m
  · simp only [fromTasks, hm] at h
    cases h
  · have hval : m = specs := by simpa using buildTasksMap_ok_val hm
    subst hval
    have hnd : (m.map (fun t => t.name)).Nodup := by
      have hiff := buildTasksMap_isOk_iff m [] (by simp)
      simp only [List.nil_append] at hiff
      rw [← hiff, hm]
      rfl
    simp only [fromTasks, hm] at h
    rcases ht : buildTables (m.map (fun t => t.name)) ([], []) m with e | tb
    · rw [ht] at h; cases h
    · rw [ht] at h
      cases h
      obtain ⟨b1, b2, b3, b4⟩ := buildTables_effect ht
      refine ⟨⟨hnd, ?_, ?_, ?_, ?_⟩, rfl⟩
      · intro t htm
        show alNat tb.1 t.name = t.deps.length
        rw [b1 t.name]
        have : alNat [] t.name = 0 := rfl
        rw [this, depsLenOf_self hnd htm]
        omega
      · exact b4 (by simp)
      · intro n t htm
        show (alList tb.2 n).count t.name = t.deps.count n
        rw [b2 n t.name]
        have : alList ([] : List (String × List String)) n = [] := rfl
        rw [this, revContrib_self hnd htm]
        simp
      · intro n m2 hm2
        have hm2' : m2 ∈ alList tb.2 n := hm2
        rcases b3 n m2 hm2' with h1 | h1
        · have : alList ([] : List (String × List String)) n = [] := rfl
          rw [this] at h1
          cases h1
        · exact h1

/-! ### Invariant-preservation helpers -/

theorem spawnDepsOk_append_nonspawn {sch : Scheduler} {tr : List Ev} {e : Ev}
    (h : SpawnDepsOk sch tr) (he : ∀ n, e ≠ Ev.spawn n) :
    SpawnDepsOk sch (tr ++ [e]) := by
  intro j nm hj t ht hname d hd
  by_cases hlt : j < tr.length
  · rw [List.get?_append hlt] at hj
    rw [List.take_append_of_le_length (le_of_lt hlt)]
    exact h j nm hj t ht hname d hd
  · rcases Nat.lt_or_ge j (tr ++ [e]).length with hlt2 | hge
    · have hj' : j = tr.length := by
        simp only [List.length_append, List.length_singleton] at hlt2
        omega
      subst hj'
      rw [List.get?_concat_length] at hj
      cases hj
      exact absurd rfl (he nm)
    · rw [List.get?_eq_none.mpr hge] at hj
      cases hj

theorem spawnDepsOk_append_spawn {sch : Scheduler} {tr : List Ev} {n : String}
    (h : SpawnDepsOk sch tr)
    (hdeps : ∀ t ∈ sch.tasks, t.name = n → ∀ d ∈ t.deps, Ev.joinOk d ∈ tr) :
    SpawnDepsOk sch (tr ++ [Ev.spawn n]) := by
  intro j nm hj t ht hname d hd
  by_cases hlt : j < tr.length
  · rw [List.get?_append hlt] at hj
    rw [List.take_append_of_le_length (le_of_lt hlt)]
    exact h j nm hj t ht hname d hd
  · rcases Nat.lt_or_ge j (tr ++ [Ev.spawn n]).length with hlt2 | hge
    · have hj' : j = tr.length := by
        simp only [List.length_append, List.length_singleton] at hlt2
        omega
      subst hj'
      rw [List.get?_concat_length] at hj
      injection hj with hj2
      injection hj2 with hj3
      rw [List.take_append_of_le_length (le_refl _), List.take_length]
      exact hdeps t ht (by rw [hname, ← hj3]) d hd
    · rw [List.get?_eq_none.mpr hge] at hj
      cases hj

theorem invbase_ext_nonspawn {sch : Scheduler} {s s' : RunSt} (h : InvBase sch s)
    {e : Ev} (hr : s'.ready = s.ready) (hi : s'.inflight = s.inflight)
    (ht : s'.trace = s.trace ++ [e])
    (hns : ∀ n, e ≠ Ev.spawn n) (hnj : ∀ n, e ≠ Ev.joinOk n) :
    InvBase sch s' := by
  have hmem : ∀ x : Ev, x ∈ s.trace → x ∈ s'.trace := by
    intro x hx; rw [ht]; exact List.mem_append.mpr (Or.inl hx)
  have hmem' : ∀ x : Ev, x ∈ s'.trace → x ∈ s.trace ∨ x = e := by
    intro x hx
    rw [ht] at hx
    rcases List.mem_append.mp hx with h1 | h2
    · exact Or.inl h1
    · exact Or.inr (List.mem_singleton.mp h2)
  refine ⟨?_, ?_, ?_, ?_, ?_, ?_, ?_, ?_⟩
  · intro nm hnm t htt hname d hd
    rw [hr] at hnm
    exact hmem _ (h.readyDeps nm hnm t htt hname d hd)
  · rw [ht]
    exact spawnDepsOk_append_nonspawn h.spawnDeps hns
  · intro nm hnm
    rw [hr] at hnm
    obtain ⟨h1, h2⟩ := h.readyFresh nm hnm
    constructor
    · intro hc
      rcases hmem' _ hc with h3 | h3
      · exact h1 h3
      · exact hns nm h3.symm
    · intro hc
      rcases hmem' _ hc with h3 | h3
      · exact h2 h3
      · exact hnj nm h3.symm
  · rw [hr]; exact h.readyNodup
  · intro nm hnm
    rw [hi] at hnm
    exact hmem _ (h.inflightSpawned nm hnm)
  · intro nm hnm
    rw [hi] at hnm
    intro hc
    rcases hmem' _ hc with h3 | h3
    · exact h.inflightNotJoined nm hnm h3
    · exact hnj nm h3.symm
  · intro nm hc
    rcases hmem' _ hc with h3 | h3
    · exact hmem _ (h.joinedSpawned nm h3)
    · exact absurd h3.symm (hnj nm)
  · rw [hi]; exact h.inflightNodup

theorem invbase_ext_spawn {sch : Scheduler} {s s' : RunSt} (h : InvBase sch s)
    {n : String} (hr : s'.ready = s.ready) (hi : s'.inflight = s.inflight ++ [n])
    (ht : s'.trace = s.trace ++ [Ev.spawn n])
    (hdeps : ∀ t ∈ sch.tasks, t.name = n → ∀ d ∈ t.deps, Ev.joinOk d ∈ s.trace)
    (hfresh : Ev.spawn n ∉ s.trace) (hnotjoined : Ev.joinOk n ∉ s.trace)
    (hnready : n ∉ s.ready) :
    InvBase sch s' := by
  have hmem : ∀ x : Ev, x ∈ s.trace → x ∈ s'.trace := by
    intro x hx; rw [ht]; exact List.mem_append.mpr (Or.inl hx)
  have hmem' : ∀ x : Ev, x ∈ s'.trace → x ∈ s.trace ∨ x = Ev.spawn n := by
    intro x hx
    rw [ht] at hx
    rcases List.mem_append.mp hx with h1 | h2
    · exact Or.inl h1
    · exact Or.inr (List.mem_singleton.mp h2)
  refine ⟨?_, ?_, ?_, ?_, ?_, ?_, ?_, ?_⟩
  · intro nm hnm t htt hname d hd
    rw [hr] at hnm
    exact hmem _ (h.readyDeps nm hnm t htt hname d hd)
  · rw [ht]
    exact spawnDepsOk_append_spawn h.spawnDeps hdeps
  · intro nm hnm
    rw [hr] at hnm
    obtain ⟨h1, h2⟩ := h.readyFresh nm hnm
    constructor
    · intro hc
      rcases hmem' _ hc with h3 | h3
      · exact h1 h3
      · injection h3 with h4
        subst h4
        exact hnready hnm
    · intro hc
      rcases hmem' _ hc with h3 | h3
      · exact h2 h3
      · cases h3
  · rw [hr]; exact h.readyNodup
  · intro nm hnm
    rw [hi] at hnm
    rcases List.mem_append.mp hnm with h1 | h2
    · exact hmem _ (h.inflightSpawned nm h1)
    · rw [List.mem_singleton] at h2
      subst h2
      rw [ht]
      exact List.mem_append.mpr (Or.inr (by simp))
  · intro nm hnm
    rw [hi] at hnm
    intro hc
    rcases hmem' _ hc with h3 | h3
    · rcases List.mem_append.mp hnm with h1 | h2
      · exact h.inflightNotJoined nm h1 h3
      · rw [List.mem_singleton] at h2
        subst h2
        exact hnotjoined h3
    · cases h3
  · intro nm hc
    rcases hmem' _ hc with h3 | h3
    · exact hmem _ (h.joinedSpawned nm h3)
    · cases h3
  · rw [hi]
    rw [List.nodup_append]
    refine ⟨h.inflightNodup, by simp, ?_⟩
    intro a ha
    rw [List.mem_singleton]
    intro hc
    subst hc
    exact hfresh (h.inflightSpawned a ha)

theorem mem_eraseIdx_facts {l : List String} (hnd : l.Nodup) {i : Nat}
    (hi : i < l.length) {a : String} (ha : a ∈ l.eraseIdx i) :
    a ∈ l ∧ a ≠ l.get ⟨i, hi⟩ := by
  have hdecomp : l = l.take i ++ l.get ⟨i, hi⟩ :: l.drop (i + 1) := by
    conv_lhs => rw [← List.take_append_drop i l]
    congr 1
    exact (List.getElem_cons_drop l i hi).symm
  have herase : l.eraseIdx i = l.take i ++ l.drop (i + 1) :=
    List.eraseIdx_eq_take_drop_succ l i
  constructor
  · exact (List.eraseIdx_sublist l i).subset ha
  · have hnd2 : (l.get ⟨i, hi⟩ :: (l.take i ++ l.drop (i + 1))).Nodup := by
      apply List.nodup_middle.mp
      rw [← hdecomp]
      exact hnd
    have hnotin := (List.nodup_cons.mp hnd2).1
    intro hc
    subst hc
    rw [herase] at ha
    exact hnotin ha

theorem invbase_ext_joinOk {sch : Scheduler} {s s' : RunSt} (h : InvBase sch s)
    {n : String} (hn_in : n ∈ s.inflight)
    (hr : s'.ready = s.ready)
    (hisub : ∀ nm ∈ s'.inflight, nm ∈ s.inflight ∧ nm ≠ n)
    (hinodup : s'.inflight.Nodup)
    (ht : s'.trace = s.trace ++ [Ev.joinOk n]) :
    InvBase sch s' := by
  have hmem : ∀ x : Ev, x ∈ s.trace → x ∈ s'.trace := by
    intro x hx; rw [ht]; exact List.mem_append.mpr (Or.inl hx)
  have hmem' : ∀ x : Ev, x ∈ s'.trace → x ∈ s.trace ∨ x = Ev.joinOk n := by
    intro x hx
    rw [ht] at hx
    rcases List.mem_append.mp hx with h1 | h2
    · exact Or.inl h1
    · exact Or.inr (List.mem_singleton.mp h2)
  refine ⟨?_, ?_, ?_, ?_, ?_, ?_, ?_, ?_⟩
  · intro nm hnm t htt hname d hd
    rw [hr] at hnm
    exact hmem _ (h.readyDeps nm hnm t htt hname d hd)
  · rw [ht]
    exact spawnDepsOk_append_nonspawn h.spawnDeps (by intro n' hc; cases hc)
  · intro nm hnm
    rw [hr] at hnm
    obtain ⟨h1, h2⟩ := h.readyFresh nm hnm
    constructor
    · intro hc
      rcases hmem' _ hc with h3 | h3
      · exact h1 h3
      · cases h3
    · intro hc
      rcases hmem' _ hc with h3 | h3
      · exact h2 h3
      · injection h3 with h4
        subst h4
        exact h1 (h.inflightSpawned nm hn_in)
  · rw [hr]; exact h.readyNodup
  · intro nm hnm
    exact hmem _ (h.inflightSpawned nm (hisub nm hnm).1)
  · intro nm hnm
    intro hc
    rcases hmem' _ hc with h3 | h3
    · exact h.inflightNotJoined nm (hisub nm hnm).1 h3
    · injection h3 with h4
      exact (hisub nm hnm).2 h4
  · intro nm hc
    rcases hmem' _ hc with h3 | h3
    · exact hmem _ (h.joinedSpawned nm h3)
    · injection h3 with h4
      subst h4
      exact hmem _ (h.inflightSpawned nm hn_in)
  · exact hinodup

theorem invbase_congr {sch : Scheduler} {s s' : RunSt} (h : InvBase sch s)
    (hr : s'.ready = s.ready) (ht : s'.trace = s.trace)
    (hi : s'.inflight = s.inflight) : InvBase sch s' := by
  constructor
  · intro nm hnm t htt hname d hd
    rw [ht]
    exact h.readyDeps nm (by rw [← hr]; exact hnm) t htt hname d hd
  · rw [ht]; exact h.spawnDeps
  · intro nm hnm
    rw [ht]
    exact h.readyFresh nm (by rw [← hr]; exact hnm)
  · rw [hr]; exact h.readyNodup
  · intro nm hnm
    rw [ht]
    exact h.inflightSpawned nm (by rw [← hi]; exact hnm)
  · intro nm hnm
    rw [ht]
    exact h.inflightNotJoined nm (by rw [← hi]; exact hnm)
  · intro nm
    rw [ht]
    exact h.joinedSpawned nm
  · rw [hi]; exact h.inflightNodup

theorem invbase_shrink_ready {sch : Scheduler} {s s' : RunSt} (h : InvBase sch s)
    (ht : s'.trace = s.trace) (hi : s'.inflight = s.inflight)
    (hsub : ∀ nm ∈ s'.ready, nm ∈ s.ready) (hnd : s'.ready.Nodup) :
    InvBase sch s' := by
  constructor
  · intro nm hnm t htt hname d hd
    rw [ht]
    exact h.readyDeps nm (hsub nm hnm) t htt hname d hd
  · rw [ht]; exact h.spawnDeps
  · intro nm hnm
    rw [ht]
    exact h.readyFresh nm (hsub nm hnm)
  · exact hnd
  · intro nm hnm
    rw [ht]
    exact h.inflightSpawned nm (by rw [← hi]; exact hnm)
  · intro nm hnm
    rw [ht]
    exact h.inflightNotJoined nm (by rw [← hi]; exact hnm)
  · intro nm
    rw [ht]
    exact h.joinedSpawned nm
  · rw [hi]; exact h.inflightNodup

theorem invbase_shrink_inflight {sch : Scheduler} {s s' : RunSt} (h : InvBase sch s)
    (hr : s'.ready = s.ready) (ht : s'.trace = s.trace)
    (hsub : ∀ nm ∈ s'.inflight, nm ∈ s.inflight) (hnd : s'.inflight.Nodup) :
    InvBase sch s' := by
  constructor
  · intro nm hnm t htt hname d hd
    rw [ht]
    exact h.readyDeps nm (by rw [← hr]; exact hnm) t htt hname d hd
  · rw [ht]; exact h.spawnDeps
  · intro nm hnm
    rw [ht]
    exact h.readyFresh nm (by rw [← hr]; exact hnm)
  · rw [hr]; exact h.readyNodup
  · intro nm hnm
    rw [ht]
    exact h.inflightSpawned nm (hsub nm hnm)
  · intro nm hnm
    rw [ht]
    exact h.inflightNotJoined nm (hsub nm hnm)
  · intro nm
    rw [ht]
    exact h.joinedSpawned nm
  · exact hnd

theorem task_name_unique {sch : Scheduler} (hwf : WFSched sch) {t t' : TaskSpec}
    (ht : t ∈ sch.tasks) (ht' : t' ∈ sch.tasks) (h : t.name = t'.name) : t = t' :=
  List.inj_on_of_nodup_map hwf.tasksNodup ht ht' h

theorem spawnLoop_indeg (sd : Nat → Bool) (q : List String) :
    ∀ s : RunSt, (spawnLoop sd q s).indeg = s.indeg := by
  induction q with
  | nil => intro s; rfl
  | cons n rest ih =>
    intro s
    rw [spawnLoop]
    by_cases hb : sd s.time = true
    · rw [if_pos hb]
    · rw [if_neg hb]
      rw [ih]

theorem spawnLoop_inv (sch : Scheduler) (sd : Nat → Bool) (q : List String) :
    ∀ (s : RunSt),
      (∀ nm ∈ q, ∀ t ∈ sch.tasks, t.name = nm → ∀ d ∈ t.deps, Ev.joinOk d ∈ s.trace) →
      (∀ nm ∈ q, Ev.spawn nm ∉ s.trace ∧ Ev.joinOk nm ∉ s.trace) →
      q.Nodup →
      s.ready = [] →
      InvBase sch s →
      InvBase sch (spawnLoop sd q s) := by
  induction q with
  | nil => intro s _ _ _ _ h; exact h
  | cons n rest ih =>
    intro s hq1 hq2 hq3 hready h
    rw [spawnLoop]
    by_cases hb : sd s.time = true
    · rw [if_pos hb]
      have hbase1 : InvBase sch
          { s with
            time := s.time + 1
            trace := s.trace ++ [Ev.sample (sd s.time)]
            ready := rest } := by
        have hmid : InvBase sch
            { s with time := s.time + 1
                     trace := s.trace ++ [Ev.sample (sd s.time)] } :=
          invbase_ext_nonspawn h rfl rfl rfl
            (by intro n' hc; cases hc) (by intro n' hc; cases hc)
        constructor
        · intro nm hnm t htt hname d hd
          show Ev.joinOk d ∈ s.trace ++ [Ev.sample (sd s.time)]
          exact List.mem_append.mpr
            (Or.inl (hq1 nm (List.mem_cons_of_mem _ hnm) t htt hname d hd))
        · exact hmid.spawnDeps
        · intro nm hnm
          obtain ⟨h1, h2⟩ := hq2 nm (List.mem_cons_of_mem _ hnm)
          constructor
          · intro hc
            rcases List.mem_append.mp hc with h3 | h3
            · exact h1 h3
            · rw [List.mem_singleton] at h3; cases h3
          · intro hc
            rcases List.mem_append.mp hc with h3 | h3
            · exact h2 h3
            · rw [List.mem_singleton] at h3; cases h3
        · exact (List.nodup_cons.mp hq3).2
        · exact hmid.inflightSpawned
        · exact hmid.inflightNotJoined
        · exact hmid.joinedSpawned
        · exact hmid.inflightNodup
      exact hbase1
    · rw [if_neg hb]
      have hfresh := hq2 n (by simp)
      have hmid : InvBase sch
          { s with time := s.time + 1
                   trace := s.trace ++ [Ev.sample (sd s.time)] } :=
        invbase_ext_nonspawn h rfl rfl rfl
          (by intro n' hc; cases hc) (by intro n' hc; cases hc)
      have hspawned : InvBase sch
          { s with
            time := s.time + 1
            trace := s.trace ++ [Ev.sample (sd s.time), Ev.spawn n]
            tasks := s.tasks.filter (fun t => t.name ≠ n)
            inflight := s.inflight ++ [n] } := by
        refine invbase_ext_spawn (n := n) hmid ?_ ?_ ?_ ?_ ?_ ?_ ?_
        · rfl
        · rfl
        · show s.trace ++ [Ev.sample (sd s.time), Ev.spawn n]
            = (s.trace ++ [Ev.sample (sd s.time)]) ++ [Ev.spawn n]
          simp
        · intro t htt hname d hd
          exact List.mem_append.mpr (Or.inl (hq1 n (by simp) t htt hname d hd))
        · intro hc
          rcases List.mem_append.mp hc with h3 | h3
          · exact hfresh.1 h3
          · rw [List.mem_singleton] at h3; cases h3
        · intro hc
          rcases List.mem_append.mp hc with h3 | h3
          · exact hfresh.2 h3
          · rw [List.mem_singleton] at h3; cases h3
        · rw [hready]
          exact List.not_mem_nil n
      refine ih _ ?_ ?_ (List.nodup_cons.mp hq3).2 ?_ hspawned
      rotate_right
      · exact hready
      · intro nm hnm t htt hname d hd
        show Ev.joinOk d ∈ s.trace ++ [Ev.sample (sd s.time), Ev.spawn n]
        exact List.mem_append.mpr
          (Or.inl (hq1 nm (List.mem_cons_of_mem _ hnm) t htt hname d hd))
      · intro nm hnm
        obtain ⟨h1, h2⟩ := hq2 nm (List.mem_cons_of_mem _ hnm)
        have hne : nm ≠ n := by
          intro hc
          subst hc
          exact (List.nodup_cons.mp hq3).1 hnm
        constructor
        · intro hc
          rcases List.mem_append.mp hc with h3 | h3
          · exact h1 h3
          · rcases List.mem_cons.mp h3 with h4 | h4
            · cases h4
            · rw [List.mem_singleton] at h4
              injection h4 with h5
              exact hne h5
        · intro hc
          rcases List.mem_append.mp hc with h3 | h3
          · exact h2 h3
          · rcases List.mem_cons.mp h3 with h4 | h4
            · cases h4
            · rw [List.mem_singleton] at h4; cases h4

theorem pendingDeps_nil_trace (ds : List String) : pendingDeps [] ds = ds.length := by
  rw [pendingDeps]
  apply List.countP_eq_length.mpr
  intro d _
  simp

theorem processDeps_inv (sch : Scheduler) (hwf : WFSched sch) (sd : Nat → Bool)
    (L : List String) :
    ∀ (s : RunSt),
      (∀ t ∈ sch.tasks, alNat s.indeg t.name
        = pendingDeps s.trace t.deps + L.count t.name) →
      (∀ m ∈ L, (∃ t ∈ sch.tasks, t.name = m) ∧ Ev.spawn m ∉ s.trace ∧ m ∉ s.ready) →
      InvBase sch s →
      InvSched sch (processDeps sd L s) := by
  induction L with
  | nil =>
    intro s hcnt hL h
    rw [processDeps]
    exact ⟨h, fun t ht => by have := hcnt t ht; simpa using this⟩
  | cons d rest ih =>
    intro s hcnt hL h
    simp only [processDeps]
    obtain ⟨⟨td, htd, htdname⟩, hdspawn, hdready⟩ := hL d (by simp)
    have hcntd := hcnt td htd
    rw [htdname] at hcntd
    have hcountd : (d :: rest).count d = rest.count d + 1 := List.count_cons_self d rest
    have hcount_ne : ∀ k, k ≠ d → (d :: rest).count k = rest.count k := by
      intro k hk
      have hk2 : ¬ (d = k) := fun hc => hk hc.symm
      rw [List.count_cons]
      simp [hk, hk2]
    by_cases h0 : alNat (alDec s.indeg d) d = 0
    · have hdec : alNat (alDec s.indeg d) d = alNat s.indeg d - 1 := alNat_alDec_self _ _
      have hz : pendingDeps s.trace td.deps = 0 ∧ rest.count d = 0 := by
        rw [hdec, hcntd, hcountd] at h0
        omega
      have hdeps_ok : ∀ d' ∈ td.deps, Ev.joinOk d' ∈ s.trace := pendingDeps_zero hz.1
      have hdnotjoined : Ev.joinOk d ∉ s.trace := by
        intro hc
        exact hdspawn (h.joinedSpawned d hc)
      have hdnotrest : d ∉ rest := List.count_eq_zero.mp hz.2
      have hcnt2 : ∀ t ∈ sch.tasks, alNat (alDec s.indeg d) t.name
          = pendingDeps (s.trace ++ [Ev.sample (sd s.time)]) t.deps
            + rest.count t.name := by
        intro t ht
        rw [pendingDeps_append_no_joinOk _ (by intro n' hc; cases hc)]
        by_cases hn : t.name = d
        · have hteq : t = td := task_name_unique hwf ht htd (by rw [hn, htdname])
          subst hteq
          rw [hn, h0, hz.1, hz.2]
        · rw [alNat_alDec_ne _ _ _ hn, hcnt t ht, hcount_ne t.name hn]
      rw [if_pos h0]
      by_cases hb : sd s.time = true
      · rw [if_pos hb]
        refine ih _ ?_ ?_ ?_
        · exact hcnt2
        · intro m hm
          obtain ⟨he, hs, hr⟩ := hL m (List.mem_cons_of_mem _ hm)
          refine ⟨he, ?_, hr⟩
          intro hc
          rcases List.mem_append.mp hc with h1 | h1
          · exact hs h1
          · rw [List.mem_singleton] at h1; cases h1
        · exact invbase_ext_nonspawn h rfl rfl rfl
            (by intro n' hc; cases hc) (by intro n' hc; cases hc)
      · rw [if_neg hb]
        have hmid : InvBase sch
            { s with
                indeg := alDec s.indeg d
                time := s.time + 1
                trace := s.trace ++ [Ev.sample (sd s.time)] } :=
          invbase_ext_nonspawn h rfl rfl rfl
            (by intro n' hc; cases hc) (by intro n' hc; cases hc)
        refine ih _ ?_ ?_ ?_
        · exact hcnt2
        · intro m hm
          obtain ⟨he, hs, hr⟩ := hL m (List.mem_cons_of_mem _ hm)
          refine ⟨he, ?_, ?_⟩
          · intro hc
            rcases List.mem_append.mp hc with h1 | h1
            · exact hs h1
            · rw [List.mem_singleton] at h1; cases h1
          · show m ∉ s.ready ++ [d]
            intro hc
            rcases List.mem_append.mp hc with h1 | h1
            · exact hr h1
            · rw [List.mem_singleton] at h1
              subst h1
              exact hdnotrest hm
        · constructor
          · intro nm hnm t htt hname d' hd'
            show Ev.joinOk d' ∈ s.trace ++ [Ev.sample (sd s.time)]
            rcases List.mem_append.mp hnm with h1 | h1
            · exact List.mem_append.mpr
                (Or.inl (h.readyDeps nm h1 t htt hname d' hd'))
            · rw [List.mem_singleton] at h1
              subst h1
              have hteq : t = td := task_name_unique hwf htt htd (by rw [hname, htdname])
              subst hteq
              exact List.mem_append.mpr (Or.inl (hdeps_ok d' hd'))
          · exact hmid.spawnDeps
          · intro nm hnm
            rcases List.mem_append.mp hnm with h1 | h1
            · exact hmid.readyFresh nm h1
            · rw [List.mem_singleton] at h1
              subst h1
              constructor
              · intro hc
                rcases List.mem_append.mp hc with h2 | h2
                · exact hdspawn h2
                · rw [List.mem_singleton] at h2; cases h2
              · intro hc
                rcases List.mem_append.mp hc with h2 | h2
                · exact hdnotjoined h2
                · rw [List.mem_singleton] at h2; cases h2
          · show (s.ready ++ [d]).Nodup
            rw [List.nodup_append]
            refine ⟨h.readyNodup, by simp, ?_⟩
            intro a ha
            rw [List.mem_singleton]
            intro hc
            subst hc
            exact hdready ha
          · exact hmid.inflightSpawned
          · exact hmid.inflightNotJoined
          · exact hmid.joinedSpawned
          · exact hmid.inflightNodup
    · rw [if_neg h0]
      refine ih _ ?_ ?_ ?_
      · intro t ht
        show alNat (alDec s.indeg d) t.name = pendingDeps s.trace t.deps + rest.count t.name
        by_cases hn : t.name = d
        · have hteq : t = td := task_name_unique hwf ht htd (by rw [hn, htdname])
          subst hteq
          rw [hn, alNat_alDec_self, hcntd, hcountd]
          omega

        · rw [alNat_alDec_ne _ _ _ hn, hcnt t ht, hcount_ne t.name hn]
      · intro m hm
        exact hL m (List.mem_cons_of_mem _ hm)
      · exact invbase_congr h rfl rfl rfl

theorem headCheck_inv (sch : Scheduler) (sd : Nat → Bool) (s : RunSt)
    (h : InvSched sch s) : InvSched sch (headCheck sd s) := by
  rw [headCheck_def]
  have hext : InvBase sch
      { s with time := s.time + 1, trace := s.trace ++ [Ev.sample (sd s.time)] } :=
    invbase_ext_nonspawn h.toInvBase rfl rfl rfl
      (by intro n' hc; cases hc) (by intro n' hc; cases hc)
  have hcnt : ∀ t ∈ sch.tasks, alNat s.indeg t.name
      = pendingDeps (s.trace ++ [Ev.sample (sd s.time)]) t.deps := by
    intro t ht
    rw [pendingDeps_append_no_joinOk _ (by intro n' hc; cases hc)]
    exact h.indegCount t ht
  by_cases hb : sd s.time = true
  · rw [if_pos hb]
    refine ⟨?_, ?_⟩
    · exact invbase_shrink_ready hext rfl rfl
        (by intro nm hnm; exact absurd hnm (List.not_mem_nil nm)) List.nodup_nil
    · exact hcnt
  · rw [if_neg hb]
    exact ⟨hext, hcnt⟩

theorem preJoin_inv (sch : Scheduler) (sd : Nat → Bool) (s : RunSt)
    (h : InvSched sch s) : InvSched sch (preJoinSt sd s) := by
  have hB := headCheck_inv sch sd s h
  have hBempty : InvBase sch { headCheck sd s with ready := [] } :=
    invbase_shrink_ready hB.toInvBase rfl rfl
      (by intro nm hnm; exact absurd hnm (List.not_mem_nil nm)) List.nodup_nil
  have hbase : InvBase sch (preJoinSt sd s) := by
    rw [preJoinSt]
    exact spawnLoop_inv sch sd (headCheck sd s).ready _
      (fun nm hnm => hB.readyDeps nm hnm)
      (fun nm hnm => hB.readyFresh nm hnm)
      hB.readyNodup rfl hBempty
  refine ⟨hbase, ?_⟩
  intro t ht
  have hindeg : (preJoinSt sd s).indeg = (headCheck sd s).indeg := by
    rw [preJoinSt]
    exact spawnLoop_indeg sd _ _
  obtain ⟨ext, hext, hall⟩ :=
    spawnLoop_trace sd (headCheck sd s).ready { headCheck sd s with ready := [] }
  have htr : (preJoinSt sd s).trace = (headCheck sd s).trace ++ ext := by
    rw [preJoinSt]
    exact hext
  rw [hindeg, htr]
  have : pendingDeps ((headCheck sd s).trace ++ ext) t.deps
      = pendingDeps (headCheck sd s).trace t.deps := by
    apply pendingDeps_congr
    intro d _
    constructor
    · intro hm
      rcases List.mem_append.mp hm with h1 | h1
      · exact h1
      · rcases hall _ h1 with ⟨b, hb⟩ | ⟨nn, hn⟩
        · cases hb
        · cases hn
    · intro hm
      exact List.mem_append.mpr (Or.inl hm)
  rw [this]
  exact hB.indegCount t ht

theorem runStep_inv (sch : Scheduler) (hwf : WFSched sch) (sd : Nat → Bool)
    (pick : Nat → Nat) (res : String → Bool) (s : RunSt) (h : InvSched sch s) :
    (∀ s2, runStep sch sd pick res s = .next s2 → InvSched sch s2) ∧
    (∀ r s2, runStep sch sd pick res s = .stop r s2 → InvSched sch s2) := by
  have hC : InvSched sch (preJoinSt sd s) := preJoin_inv sch sd s h
  by_cases hempty : (s.ready.isEmpty = true ∧ s.inflight.isEmpty = true)
  · constructor
    · intro s2 hn
      rw [runStep, if_pos hempty] at hn
      cases hn
    · intro r s2 hn
      rw [runStep, if_pos hempty] at hn
      cases hn
      exact h
  · have hmain : ∀ out, runStep sch sd pick res s = out →
        (∀ s2, out = .next s2 → InvSched sch s2) ∧
        (∀ r s2, out = .stop r s2 → InvSched sch s2) := by
      intro out hout
      rw [runStep, if_neg hempty] at hout
      rcases hfl : (preJoinSt sd s).inflight with _ | ⟨x, xs⟩
      · rw [hfl] at hout
        constructor
        · intro s2 hn
          rw [← hout] at hn
          cases hn
          exact hC
        · intro r s2 hn
          rw [← hout] at hn
          cases hn
      · rw [hfl] at hout
        simp only [joinStep] at hout
        set idx := pick (preJoinSt sd s).time % (x :: xs).length with hidx
        set n := (x :: xs).getD idx x with hn
        have hilt : idx < (x :: xs).length := Nat.mod_lt _ (by simp)
        have hgetn : n = (x :: xs).get ⟨idx, hilt⟩ := by
          rw [hn, List.getD_eq_getElem _ x hilt]
          rfl
        have hn_in : n ∈ (preJoinSt sd s).inflight := by
          rw [hfl, hgetn]
          exact (x :: xs).get_mem _ _
        have hnodupC : (x :: xs).Nodup := by
          rw [← hfl]
          exact hC.inflightNodup
        have hesub : ∀ nm ∈ (x :: xs).eraseIdx idx,
            nm ∈ (preJoinSt sd s).inflight ∧ nm ≠ n := by
          intro nm hnm
          obtain ⟨h1, h2⟩ := mem_eraseIdx_facts hnodupC hilt hnm
          refine ⟨by rw [hfl]; exact h1, ?_⟩
          rw [hgetn]
          exact h2
        have hend : ((x :: xs).eraseIdx idx).Nodup := hnodupC.eraseIdx idx
        have hnotJ : Ev.joinOk n ∉ (preJoinSt sd s).trace :=
          hC.inflightNotJoined n hn_in
        cases hres : res n with
        | true =>
          rw [hres, if_pos rfl] at hout
          constructor
          · intro s2 hnx
            rw [← hout] at hnx
            cases hnx
            refine processDeps_inv sch hwf sd (revEdgesOf sch n) _ ?_ ?_ ?_
            · intro t ht
              show alNat (preJoinSt sd s).indeg t.name
                = pendingDeps ((preJoinSt sd s).trace ++ [Ev.joinOk n]) t.deps
                  + (revEdgesOf sch n).count t.name
              rw [hwf.revSpec n t ht,
                ← pendingDeps_append_joinOk t.deps n hnotJ]
              exact hC.indegCount t ht
            · intro m hm
              obtain ⟨t, ht, htm, hnd⟩ := hwf.revMem n m hm
              have hspawn_not : Ev.spawn m ∉ (preJoinSt sd s).trace := by
                intro hc
                obtain ⟨j, hj⟩ := List.get?_of_mem hc
                have hjoin := hC.spawnDeps j m hj t ht htm n hnd
                exact hnotJ (List.take_subset j _ hjoin)
              refine ⟨⟨t, ht, htm⟩, ?_, ?_⟩
              · show Ev.spawn m ∉ (preJoinSt sd s).trace ++ [Ev.joinOk n]
                intro hc
                rcases List.mem_append.mp hc with h1 | h1
                · exact hspawn_not h1
                · rw [List.mem_singleton] at h1
                  cases h1
              · show m ∉ (preJoinSt sd s).ready
                intro hc
                exact hnotJ (hC.readyDeps m hc t ht htm n hnd)
            · exact invbase_ext_joinOk hC.toInvBase hn_in rfl hesub hend rfl
          · intro r s2 hnx
            rw [← hout] at hnx
            cases hnx
        | false =>
          rw [hres] at hout
          rw [if_neg (by simp)] at hout
          constructor
          · intro s2 hnx
            rw [← hout] at hnx
            cases hnx
          · intro r s2 hnx
            rw [← hout] at hnx
            cases hnx
            refine ⟨?_, ?_⟩
            · refine invbase_ext_nonspawn
                (s := { preJoinSt sd s with inflight := (x :: xs).eraseIdx idx })
                ?_ rfl rfl rfl
                (by intro n' hc; cases hc) (by intro n' hc; cases hc)
              exact invbase_shrink_inflight hC.toInvBase rfl rfl
                (fun nm hnm => (hesub nm hnm).1) hend
            · intro t ht
              show alNat (preJoinSt sd s).indeg t.name
                = pendingDeps ((preJoinSt sd s).trace ++ [Ev.joinErr n]) t.deps
              rw [pendingDeps_append_no_joinOk _ (by intro n' hc; cases hc)]
              exact hC.indegCount t ht
    exact hmain _ rfl

theorem runLoop_inv (sch : Scheduler) (hwf : WFSched sch) (sd : Nat → Bool)
    (pick : Nat → Nat) (res : String → Bool) :
    ∀ (fuel : Nat) (s : RunSt) (r : RunOutcome) (st : RunSt), InvSched sch s →
      runLoop sch sd pick res fuel s = some (r, st) → InvSched sch st := by
  intro fuel
  induction fuel with
  | zero => intro s r st _ hrun; simp [runLoop] at hrun
  | succ fuel ih =>
    intro s r st h hrun
    rw [runLoop] at hrun
    cases hstep : runStep sch sd pick res s with
    | next s2 =>
      rw [hstep] at hrun
      exact ih s2 r st ((runStep_inv sch hwf sd pick res s h).1 s2 hstep) hrun
    | stop r2 s2 =>
      rw [hstep] at hrun
      simp at hrun
      obtain ⟨h1, h2⟩ := hrun
      rw [← h2]
      exact (runStep_inv sch hwf sd pick res s h).2 r2 s2 hstep

theorem alNat_mem_nodup (l : List (String × Nat)) :
    (l.map (fun p => p.1)).Nodup → ∀ (k : String) (v : Nat),
      (k, v) ∈ l → alNat l k = v := by
  induction l with
  | nil => intro _ k v hm; cases hm
  | cons p rest ih =>
    intro hnd k v hm
    rw [List.map_cons] at hnd
    obtain ⟨hnotin, hnd2⟩ := List.nodup_cons.mp hnd
    by_cases hpk : p.1 = k
    · have hpeq : p = (k, v) := by
        rcases List.mem_cons.mp hm with h1 | h1
        · exact h1.symm
        · exfalso
          apply hnotin
          rw [hpk]
          exact List.mem_map.mpr ⟨(k, v), h1, rfl⟩
      rw [alNat]
      have hfind : List.find? (fun q => q.1 = k) (p :: rest) = some p := by
        apply List.find?_cons_of_pos
        simp [hpk]
      rw [hfind, hpeq]
      rfl
    · rcases List.mem_cons.mp hm with h1 | h1
      · exact absurd (by rw [← h1]) hpk
      · rw [alNat]
        have hfind : List.find? (fun q => q.1 = k) (p :: rest)
            = List.find? (fun q => q.1 = k) rest := by
          apply List.find?_cons_of_neg
          simp [hpk]
        rw [hfind]
        exact ih hnd2 k v h1

theorem initSt_inv (sch : Scheduler) (hwf : WFSched sch) :
    InvSched sch (initSt sch) := by
  have hready0 : ∀ nm ∈ (initSt sch).ready, alNat sch.indegree nm = 0 := by
    intro nm hnm
    simp only [initSt] at hnm
    obtain ⟨p, hp, hp1⟩ := List.mem_map.mp hnm
    obtain ⟨hpmem, hp2⟩ := List.mem_filter.mp hp
    have hp2v : p.2 = 0 := by simpa using hp2
    rw [← hp1, ← hp2v]
    exact alNat_mem_nodup sch.indegree hwf.indegKeysNodup p.1 p.2 hpmem
  refine ⟨⟨?_, ?_, ?_, ?_, ?_, ?_, ?_, ?_⟩, ?_⟩
  · intro nm hnm t ht hname d hd
    exfalso
    have h0 := hready0 nm hnm
    rw [← hname] at h0
    have hlen : t.deps.length = 0 := (hwf.indegSpec t ht).symm.trans h0
    rw [List.length_eq_zero.mp hlen] at hd
    exact absurd hd (List.not_mem_nil d)
  · intro j nm hj
    simp [initSt] at hj
  · intro nm hnm
    constructor <;> simp [initSt]
  · have hsub : ((sch.indegree.filter (fun p => p.2 = 0)).map
        (fun p => p.1)).Sublist (sch.indegree.map (fun p => p.1)) :=
      (List.filter_sublist _).map _
    exact List.Nodup.sublist hsub hwf.indegKeysNodup
  · intro nm hnm
    simp [initSt] at hnm
  · intro nm hnm
    simp [initSt] at hnm
  · intro nm hc
    simp [initSt] at hc
  · show ([] : List String).Nodup
    exact List.nodup_nil
  · intro t ht
    show alNat sch.indegree t.name = pendingDeps [] t.deps
    rw [pendingDeps_nil_trace]
    exact hwf.indegSpec t ht

/-- C5: dependency respect. In every run of a scheduler built by
`from_tasks`, whenever task `b` declares a dependency on `a`, the event
spawning `b` occurs strictly after the event recording `a`'s successful
completion (`join_next` returning `Ok`); and if `a` never completed
successfully — it failed or never ran — then `b` is never spawned. -/
theorem dependency_respect (specs : List TaskSpec) (sch : Scheduler)
    (sd : Nat → Bool) (pick : Nat → Nat) (res : String → Bool) (fuel : Nat)
    (r : RunOutcome) (st : RunSt)
    (hok : fromTasks specs = Except.ok sch)
    (hrun : schedulerRun sch sd pick res fuel = some (r, st))
    (b : TaskSpec) (hb : b ∈ sch.tasks) (a : String) (ha : a ∈ b.deps) :
    (∀ j, st.trace.get? j = some (Ev.spawn b.name) →
        Ev.joinOk a ∈ st.trace.take j)
      ∧ (Ev.joinOk a ∉ st.trace → Ev.spawn b.name ∉ st.trace) := by
  have hwf := (fromTasks_wf hok).1
  have hinv : InvSched sch st :=
    runLoop_inv sch hwf sd pick res fuel (initSt sch) r st
      (initSt_inv sch hwf) hrun
  have hfst : ∀ j, st.trace.get? j = some (Ev.spawn b.name) →
      Ev.joinOk a ∈ st.trace.take j := by
    intro j hj
    exact hinv.spawnDeps j b.name hj b hb rfl a ha
  refine ⟨hfst, ?_⟩
  intro hnoa hc
  obtain ⟨j, hj⟩ := List.get?_of_mem hc
  exact hnoa (List.take_subset j _ (hfst j hj))

/-- Witness for `dependency_respect`: in the concrete run of the pair
`a → b` with everything succeeding, every spawn of `b` in the final trace
is preceded by `joinOk a`. -/
theorem dependency_respect_witness :
    (∀ j, ([Ev.sample false, Ev.sample false, Ev.spawn "a", Ev.joinOk "a",
        Ev.sample false, Ev.sample false, Ev.sample false, Ev.spawn "b",
        Ev.joinOk "b"] : List Ev).get? j = some (Ev.spawn "b") →
      Ev.joinOk "a" ∈ ([Ev.sample false, Ev.sample false, Ev.spawn "a",
        Ev.joinOk "a", Ev.sample false, Ev.sample false, Ev.sample false,
        Ev.spawn "b", Ev.joinOk "b"] : List Ev).take j)
    ∧ (Ev.joinOk "a" ∉ ([Ev.sample false, Ev.sample false, Ev.spawn "a",
        Ev.joinOk "a", Ev.sample false, Ev.sample false, Ev.sample false,
        Ev.spawn "b", Ev.joinOk "b"] : List Ev) →
      Ev.spawn "b" ∉ ([Ev.sample false, Ev.sample false, Ev.spawn "a",
        Ev.joinOk "a", Ev.sample false, Ev.sample false, Ev.sample false,
        Ev.spawn "b", Ev.joinOk "b"] : List Ev)) :=
  dependency_respect c5tasks c5sched (fun _ => false) (fun _ => 0)
    (fun _ => true) 10 .ok
    (RunSt.mk [] [] [] [("a", 0), ("b", 0)] 5
      [Ev.sample false, Ev.sample false, Ev.spawn "a", Ev.joinOk "a",
       Ev.sample false, Ev.sample false, Ev.sample false, Ev.spawn "b",
       Ev.joinOk "b"])
    (by rfl) (by decide) ⟨"b", ["a"]⟩ (by decide) "a" (by decide)

theorem closeG_ext (tu : String → Bool) :
    ∀ (fuel : Nat) (a : String) (st : TearSt),
      ∃ ext, (closeG tu fuel a st).2.trace = st.trace ++ ext ∧
        (ext = [] ∨ ∃ ext2, ext = TEv.restore a (tu a) :: ext2) := by
  intro fuel
  induction fuel with
  | zero =>
    intro a st
    exact ⟨[], by simp [closeG], Or.inl rfl⟩
  | succ fuel ih =>
    intro a st
    simp only [closeG]
    split
    · split
      · split
        · split
          · split
            · rename_i nd hl hc ht p hnu res st4 heq
              obtain ⟨ext2, h2, hsh⟩ := ih ht _
              rw [heq] at h2
              exact ⟨TEv.restore a (tu a) :: ext2, by simpa using h2,
                Or.inr ⟨ext2, rfl⟩⟩
            · rename_i nd hl hc ht p hnu e st4 heq
              obtain ⟨ext2, h2, hsh⟩ := ih ht _
              rw [heq] at h2
              exact ⟨TEv.restore a (tu a) :: ext2, by simpa using h2,
                Or.inr ⟨ext2, rfl⟩⟩
          · exact ⟨[TEv.restore _ (tu _)], by simp, Or.inr ⟨[], rfl⟩⟩
        · exact ⟨[TEv.restore _ (tu _)], by simp, Or.inr ⟨[], rfl⟩⟩
      · exact ⟨[], by simp, Or.inl rfl⟩
    · exact ⟨[], by simp, Or.inl rfl⟩
    · exact ⟨[], by simp, Or.inl rfl⟩

theorem restore_head_order {a : String} {b0 : Bool} {ext : List TEv}
    (hsh : ext = [] ∨ ∃ ext2, ext = TEv.restore a b0 :: ext2) :
    ∀ j m b, ext.get? j = some (TEv.restore m b) →
      (j = 0 ∧ m = a ∧ b = b0) ∨
      (0 < j ∧ ext.get? 0 = some (TEv.restore a b0)) := by
  intro j m b hj
  rcases hsh with h | ⟨ext2, h⟩
  · subst h
    simp at hj
  · subst h
    cases j with
    | zero =>
      simp at hj
      exact Or.inl ⟨rfl, hj.1.symm, hj.2.symm⟩
    | succ j2 => exact Or.inr ⟨Nat.succ_pos j2, rfl⟩

/-- C7: restore patches along a teardown chain are issued child-first.
Any restore emitted by `close` on the guard of node `a` other than `a`'s
own restore comes strictly after it — in particular, when `tear(child)`
transitively acquired an upstream guard on the parent, the final close
restores the child before the parent (tearing.rs lines 116-130). In the
rollback path after a failed pause the restores emitted by the
best-effort upstream close are likewise headed by the immediate upstream
node's restore (lines 63-76). -/
theorem nested_release_order (pz tu : String → Bool) :
    (∀ (fuel : Nat) (a : String) (st : TearSt) (ext : List TEv),
        (closeG tu fuel a st).2.trace = st.trace ++ ext →
        ∀ j m b, ext.get? j = some (TEv.restore m b) →
          (j = 0 ∧ m = a ∧ b = tu a) ∨
          (0 < j ∧ ext.get? 0 = some (TEv.restore a (tu a))))
    ∧ (∀ (a p : String) (rest : List String) (st st1 : TearSt) (u : Unit),
        alTear st.tbl a = none →
        tearChain pz tu (p :: rest) st = (.ok u, st1) →
        pz a = false →
        ∃ ext,
          (tearChain pz tu (a :: p :: rest) st).2.trace
            = st1.trace ++ TEv.pause a false :: ext ∧
          ∀ j m b, ext.get? j = some (TEv.restore m b) →
            (j = 0 ∧ m = p ∧ b = tu p) ∨
            (0 < j ∧ ext.get? 0 = some (TEv.restore p (tu p)))) := by
  constructor
  · intro fuel a st ext hext
    obtain ⟨ext0, h0, hsh⟩ := closeG_ext tu fuel a st
    rw [hext] at h0
    have heq : ext = ext0 := by
      have := List.append_cancel_left h0
      exact this
    rw [heq]
    exact restore_head_order hsh
  · intro a p rest st st1 u h1 h2 h3
    obtain ⟨ext0, h0, hsh⟩ := closeG_ext tu (p :: rest).length p
      { st1 with trace := st1.trace ++ [TEv.pause a false] }
    refine ⟨ext0, ?_, restore_head_order hsh⟩
    simp only [tearChain, h1, h3, Bool.false_eq_true, if_false]
    split
    · rename_i e st2 heq
      have h5 : tearChain pz tu (p :: rest) st = (Except.error e, st2) := heq
      rw [h2] at h5
      cases h5
    · rename_i q st2 heq
      have h5 : tearChain pz tu (p :: rest) st = (Except.ok q, st2) := heq
      rw [h2] at h5
      injection h5 with h6 h7
      subst h7
      dsimp only
      rw [h0]
      simp

/-- Witness for `nested_release_order`: on the concrete two-node chain
child `c` with upstream parent `p`, both counters at one, the final
close emits the trace `[restore c, restore p]` and the parent restore at
index 1 is preceded by the child restore at index 0. -/
theorem nested_release_order_witness :
    (1 = 0 ∧ "p" = "c" ∧ true = (fun _ : String => true) "c") ∨
    (0 < 1 ∧ ([TEv.restore "c" true, TEv.restore "p" true] : List TEv).get? 0
        = some (TEv.restore "c" ((fun _ : String => true) "c"))) :=
  (nested_release_order (fun _ => true) (fun _ => true)).1 2 "c"
    ⟨[("c", .ok ⟨some "p", 1⟩), ("p", .ok ⟨none, 1⟩)], []⟩
    [TEv.restore "c" true, TEv.restore "p" true]
    (by rfl) 1 "p" true (by rfl)

/-- C4: refuting the recorded-error claim. A failed pause leaves the
node's `tear` field empty: the failure branch of `tear` (tearing.rs
lines 61-77) returns the error WITHOUT storing `Some(Err(e))`, so a
later `tear` on the same node retries the pause patch (two pause events
in the trace) instead of failing fast with a clone of the recorded
error; the `Some(Err)` arm of line 49 is dead code. -/
theorem tear_failure_not_recorded :
    (tearChain (fun _ => false) (fun _ => true) ["a"] ⟨[], []⟩).1
        = .error (.pauseErr "a")
    ∧ alTear (tearChain (fun _ => false) (fun _ => true) ["a"] ⟨[], []⟩).2.tbl "a"
        = none
    ∧ (tearChain (fun _ => false) (fun _ => true) ["a"]
        (tearChain (fun _ => false) (fun _ => true) ["a"] ⟨[], []⟩).2).2.trace
        = [TEv.pause "a" false, TEv.pause "a" false]
    ∧ (tearChain (fun _ => false) (fun _ => true) ["a"]
        (tearChain (fun _ => false) (fun _ => true) ["a"] ⟨[], []⟩).2).1
        = .error (.pauseErr "a") :=
  ⟨rfl, rfl, rfl, rfl⟩

/-- C1: refuting the at-most-once-pause claim. Two callers concurrently
tearing the same parentless node under the interleaving
read-check, read-check, write-section, write-section issue the pause
patch twice — the write-locked section of `tear` (tearing.rs lines
53-91) does not re-check the `tear` field it read as `None` under the
earlier read lock (line 46). The sequential interleaving issues it
exactly once. -/
theorem tear_pause_raced :
    (raceRun [0, 1, 0, 1] ⟨false, 0, [CPc.start, CPc.start]⟩).pauses = 2
    ∧ (raceRun [0, 0, 1, 1] ⟨false, 0, [CPc.start, CPc.start]⟩).pauses = 1 :=
  ⟨rfl, rfl⟩

theorem stsLoop_spec (sp : Nat → StsProbe) (target : Int) (cfg : PollingConfig)
    (hns : ∀ k, sp k ≠ StsProbe.okNoStatus) :
    ∀ (fuel k w e : Nat),
      absSts (stsLoop sp target cfg fuel k w e)
        = pollLoopSpec (fun i => stsClassify target (sp i)) cfg fuel k w e := by
  intro fuel
  induction fuel with
  | zero => intro k w e; rfl
  | succ fuel ih =>
    intro k w e
    cases hp : sp k with
    | okStatus s =>
      by_cases hs : (s.currentReplicas.getD 0 = target
          ∧ s.availableReplicas.getD 0 = target)
      · simp [stsLoop, pollLoopSpec, hp, stsClassify, hs, absSts]
      · by_cases hw : cfg.maxWait ≤ w
        · simp [stsLoop, pollLoopSpec, hp, stsClassify, hs, hw, absSts]
        · simp [stsLoop, pollLoopSpec, hp, stsClassify, hs, hw, ih]
    | okNoStatus => exact absurd hp (hns k)
    | clientErr =>
      by_cases he : cfg.maxErrors ≤ e + 1
      · simp [stsLoop, pollLoopSpec, hp, stsClassify, he, absSts]
      · simp [stsLoop, pollLoopSpec, hp, stsClassify, he, ih]

theorem podLoop_spec (pp : Nat → PodProbe) (cfg : PollingConfig) :
    ∀ (fuel k w e : Nat),
      absPod (podLoop pp cfg fuel k w e)
        = pollLoopSpec (fun i => podClassify (pp i)) cfg fuel k w e := by
  intro fuel
  induction fuel with
  | zero => intro k w e; rfl
  | succ fuel ih =>
    intro k w e
    cases hp : pp k with
    | present =>
      by_cases hw : cfg.maxWait ≤ w
      · simp [podLoop, pollLoopSpec, hp, podClassify, hw, absPod]
      · simp [podLoop, pollLoopSpec, hp, podClassify, hw, ih]
    | absent => simp [podLoop, pollLoopSpec, hp, podClassify, absPod]
    | clientErr =>
      by_cases he : cfg.maxErrors ≤ e + 1
      · simp [podLoop, pollLoopSpec, hp, podClassify, he, absPod]
      · simp [podLoop, pollLoopSpec, hp, podClassify, he, ih]

theorem jobLoop_spec (jp : Nat → JobProbe) (cfg : PollingConfig) :
    ∀ (fuel k w e : Nat),
      absJob (jobLoop jp cfg fuel k w e)
        = pollLoopSpec (fun i => jobClassify (jp i)) cfg fuel k w e := by
  intro fuel
  induction fuel with
  | zero => intro k w e; rfl
  | succ fuel ih =>
    intro k w e
    cases hp : jp k with
    | okJob active =>
      by_cases hf : (active = some 0 ∨ active = none)
      · simp [jobLoop, pollLoopSpec, hp, jobClassify, hf, absJob]
      · by_cases hw : cfg.maxWait ≤ w
        · simp [jobLoop, pollLoopSpec, hp, jobClassify, hf, hw, absJob]
        · simp [jobLoop, pollLoopSpec, hp, jobClassify, hf, hw, ih]
    | clientErr =>
      by_cases he : cfg.maxErrors ≤ e + 1
      · simp [jobLoop, pollLoopSpec, hp, jobClassify, he, absJob]
      · simp [jobLoop, pollLoopSpec, hp, jobClassify, he, ih]

/-- C8: each of the three polling wait loops refines the specification's
generic loop: starting from `elapsed = initial_wait`, a not-yet probe
fails with a timeout reporting the accumulated elapsed when
`elapsed ≥ max_wait` and otherwise adds `poll_interval`; a transient
client error bumps the error counter, fails with the client error once
it reaches `max_errors`, and otherwise adds `error_wait`. The
StatefulSet loop additionally fails immediately on a status-less object,
a case outside the generic loop and excluded here by hypothesis. -/
theorem polling_loops_uniform (cfg : PollingConfig) (fuel : Nat) (target : Int)
    (sp : Nat → StsProbe) (pp : Nat → PodProbe) (jp : Nat → JobProbe)
    (hns : ∀ k, sp k ≠ StsProbe.okNoStatus) :
    absSts (waitUntilStatefulsetScaled sp target cfg fuel)
        = pollSpec (fun i => stsClassify target (sp i)) cfg fuel
    ∧ absPod (waitUntilPodStopped pp cfg fuel)
        = pollSpec (fun i => podClassify (pp i)) cfg fuel
    ∧ absJob (waitUntilJobFinished jp cfg fuel)
        = pollSpec (fun i => jobClassify (jp i)) cfg fuel :=
  ⟨stsLoop_spec sp target cfg hns fuel 0 cfg.initialWait 0,
   podLoop_spec pp cfg fuel 0 cfg.initialWait 0,
   jobLoop_spec jp cfg fuel 0 cfg.initialWait 0⟩

/-- Witness for `polling_loops_uniform` at a concrete configuration and
concrete probe streams. -/
theorem polling_loops_uniform_witness :
    absSts (waitUntilStatefulsetScaled
        (fun _ => StsProbe.okStatus ⟨some 0, some 0⟩) 0 ⟨5, 20, 10, 3, 2⟩ 10)
      = pollSpec (fun i => stsClassify 0
          ((fun _ => StsProbe.okStatus ⟨some 0, some 0⟩) i)) ⟨5, 20, 10, 3, 2⟩ 10
    ∧ absPod (waitUntilPodStopped (fun _ => PodProbe.absent) ⟨5, 20, 10, 3, 2⟩ 10)
      = pollSpec (fun i => podClassify
          ((fun _ => PodProbe.absent) i)) ⟨5, 20, 10, 3, 2⟩ 10
    ∧ absJob (waitUntilJobFinished (fun _ => JobProbe.okJob none) ⟨5, 20, 10, 3, 2⟩ 10)
      = pollSpec (fun i => jobClassify
          ((fun _ => JobProbe.okJob none) i)) ⟨5, 20, 10, 3, 2⟩ 10 :=
  polling_loops_uniform ⟨5, 20, 10, 3, 2⟩ 10 0
    (fun _ => StsProbe.okStatus ⟨some 0, some 0⟩)
    (fun _ => PodProbe.absent) (fun _ => JobProbe.okJob none)
    (by intro k hc; cases hc)

/-- C9: `build_daily_tasks` emits exactly the claimed nodes with exactly
the claimed dependency lists: the two fixed head tasks, one
`shutdown_mcserver` node per server key depending only on
`shutdown_mcproxy`, one `execute_job/after_snapshot` node per configured
job depending on its declared job dependencies (as execute_job nodes of
the same server) plus that server's shutdown node, one
`relaunch_mcserver` node per server depending on all of that server's
execute_job nodes plus its shutdown node, and `relaunch_mcproxy`
depending on `shutdown_mcproxy` plus `relaunch_mcserver/k` for exactly
the keys with `required_to_start = true`. -/
theorem build_daily_tasks_exact (cfg : DailyCfg) (t : TaskSpec) :
    t ∈ buildDailyTasks cfg ↔ ClaimedDailyTask cfg t := by
  constructor
  · intro h
    simp only [buildDailyTasks, List.mem_append, List.mem_cons, List.mem_map,
      List.mem_bind, List.not_mem_nil, or_false, List.mem_singleton] at h
    simp only [ClaimedDailyTask]
    rcases h with ((((h | h) | ⟨s, hs, h⟩) | ⟨s, hs, j, hj, h⟩) | ⟨s, hs, h⟩) | h
    · exact Or.inl h
    · exact Or.inr (Or.inl h)
    · exact Or.inr (Or.inr (Or.inl ⟨s, hs, h.symm⟩))
    · exact Or.inr (Or.inr (Or.inr (Or.inl ⟨s, hs, j, hj, h.symm⟩)))
    · exact Or.inr (Or.inr (Or.inr (Or.inr (Or.inl ⟨s, hs, h.symm⟩))))
    · exact Or.inr (Or.inr (Or.inr (Or.inr (Or.inr h))))
  · intro h
    simp only [ClaimedDailyTask] at h
    simp only [buildDailyTasks, List.mem_append, List.mem_cons, List.mem_map,
      List.mem_bind, List.not_mem_nil, or_false, List.mem_singleton]
    rcases h with h | h | ⟨s, hs, h⟩ | ⟨s, hs, j, hj, h⟩ | ⟨s, hs, h⟩ | h
    · exact Or.inl (Or.inl (Or.inl (Or.inl (Or.inl h))))
    · exact Or.inl (Or.inl (Or.inl (Or.inl (Or.inr h))))
    · exact Or.inl (Or.inl (Or.inl (Or.inr ⟨s, hs, h.symm⟩)))
    · exact Or.inl (Or.inl (Or.inr ⟨s, hs, j, hj, h.symm⟩))
    · exact Or.inl (Or.inr ⟨s, hs, h.symm⟩)
    · exact Or.inr h

/-- C10: the three-way case split of `scale_statefulset_to_zero` after a
successful read: a missing `spec.replicas` fails with
`StatefulSetHasNoReplicas` and issues no patch; replicas already at the
target return `Ok(false)` with no patch; only a differing replica count
issues the merge patch, returning `Ok(true)` when the patch succeeds —
and the patch is issued exactly in that last case. -/
theorem scale_statefulset_three_way (sts : StsObject)
    (patchRes : Except Unit Unit) (target : Int) :
    (sts.spec.bind (fun s => s.replicas) = none →
        scaleStatefulsetToZero (.ok sts) patchRes target
          = (.error .statefulSetHasNoReplicas, false))
    ∧ (sts.spec.bind (fun s => s.replicas) = some target →
        scaleStatefulsetToZero (.ok sts) patchRes target = (.ok false, false))
    ∧ (∀ c, sts.spec.bind (fun s => s.replicas) = some c → c ≠ target →
        (scaleStatefulsetToZero (.ok sts) patchRes target).2 = true
        ∧ (patchRes = .ok () →
            scaleStatefulsetToZero (.ok sts) patchRes target = (.ok true, true)))
    ∧ ((scaleStatefulsetToZero (.ok sts) patchRes target).2 = true ↔
        ∃ c, sts.spec.bind (fun s => s.replicas) = some c ∧ c ≠ target) := by
  refine ⟨?_, ?_, ?_, ?_⟩
  · intro h
    simp [scaleStatefulsetToZero, h]
  · intro h
    simp [scaleStatefulsetToZero, h]
  · intro c h hne
    constructor
    · cases patchRes with
      | ok u => simp [scaleStatefulsetToZero, h, hne]
      | error e => simp [scaleStatefulsetToZero, h, hne]
    · intro hp
      subst hp
      simp [scaleStatefulsetToZero, h, hne]
  · constructor
    · intro h
      rcases hrep : sts.spec.bind (fun s => s.replicas) with _ | c
      · simp [scaleStatefulsetToZero, hrep] at h
      · by_cases hc : c = target
        · simp [scaleStatefulsetToZero, hrep, hc] at h
        · exact ⟨c, rfl, hc⟩
    · rintro ⟨c, hrep, hc⟩
      cases patchRes with
      | ok u => simp [scaleStatefulsetToZero, hrep, hc]
      | error e => simp [scaleStatefulsetToZero, hrep, hc]

/-- Witness for `scale_statefulset_three_way`: a StatefulSet whose spec
has no `replicas` field makes the function fail with
`StatefulSetHasNoReplicas` without issuing the patch. -/
theorem scale_statefulset_three_way_witness :
    scaleStatefulsetToZero (.ok ⟨some ⟨none⟩⟩) (.ok ()) 0
      = (.error .statefulSetHasNoReplicas, false) :=
  (scale_statefulset_three_way ⟨some ⟨none⟩⟩ (.ok ()) 0).1 rfl
end Man10Routine